import Mathlib

/-!
Shallow embedding of `src/ini.c` (WillEccles/ini.c), a small INI-file
parser/writer built on sorted singly-linked lists.

Modelling conventions:
* C strings become `List Char` (`Str`); C strings never contain NUL, and all
  inputs considered here are NUL-free, so `strcmp` is modelled on char lists.
* `NULL` char pointers (absent values, the default section's name) become
  `Option`.
* Linked lists become Lean lists; a C function that returns a pointer into a
  list is modelled as returning the index of that node, so that aliasing-based
  behaviour (which node a later mutation hits) is preserved.
* Allocation is assumed to succeed (`calloc`/`strdup` failures are out of
  scope for the claims).
* A `FILE*` input stream is modelled as `Option (List Char × Bool)`:
  `none` means `fopen` fails; `some (cs, err)` means the reads deliver the
  bytes `cs` and afterwards the stream reports error (`err = true`, i.e.
  `ferror` becomes set) or end-of-file (`err = false`).
-/

namespace IniC

abbrev Str := List Char

/-- Byte-wise `strcmp`, on NUL-free strings.  A shorter string that is a
prefix of the longer compares against the longer's next byte exactly as the
C terminator (0) would. -/
def strcmp : Str → Str → Int
  | [], [] => 0
  | [], b :: _ => -(b.toNat : Int)
  | a :: _, [] => (a.toNat : Int)
  | a :: as, b :: bs => if a = b then strcmp as bs else (a.toNat : Int) - (b.toNat : Int)

/-- `struct inipair` (without the intrusive `next` pointer; lists are Lean
lists).  `val == NULL` becomes `none`. -/
structure Pair where
  key : Str
  val : Option Str
  deriving DecidableEq, Repr

/-- `struct inisection` for named sections (the default section's pairs are
kept separately in `INIFile`, mirroring `inifile.default_section` whose
`name` is `NULL`). -/
structure INISection where
  name : Str
  head : List Pair
  deriving DecidableEq, Repr

/-- `struct inifile`.  `dflt` is the pair list of `default_section`;
`sections` is the list hanging off `head`. -/
structure INIFile where
  dflt : List Pair
  sections : List INISection
  flags : Nat
  deriving DecidableEq, Repr

/-- `enum INI_OPT` bit for spaces around the delimiter. -/
def INIO_SPACE_AROUND_DELIM : Nat := 1

/-- `enum INI_OPT` bit for empty values. -/
def INIO_ALLOW_EMPTY : Nat := 2

/-- Truthiness of `flags & bit` in C. -/
def hasFlag (flags bit : Nat) : Bool := decide ((flags &&& bit) ≠ 0)

def allowEmpty (flags : Nat) : Bool := hasFlag flags INIO_ALLOW_EMPTY

def spaceDelim (flags : Nat) : Bool := hasFlag flags INIO_SPACE_AROUND_DELIM

/-- `makepair` (key/val are strdup'd copies). -/
def makepair (key : Str) (val : Option Str) : Pair := ⟨key, val⟩

/-- `makesection` (name is strdup'd, `head = NULL`). -/
def makesection (name : Str) : INISection := ⟨name, []⟩

/-- `makeini`: empty default section, no named sections. -/
def makeini (flags : Nat) : INIFile := ⟨[], [], flags⟩

/-- Body of `section_insert`'s walk, entered when the list is non-empty.
The C loop runs `while (curr->next != NULL)`, so the one-element tail `[c]`
exits the loop and appends unconditionally; a comparison only happens when
`curr` has a successor.  Returns the updated list and the index of the node
the C function returns. -/
def secInsertGo (sec : INISection) : List INISection → List INISection × Nat
  | [] => ([sec], 0)
  | [c] => ([c, sec], 1)
  | c :: c2 :: rest =>
    let s := strcmp sec.name c.name
    if s < 0 then
      (sec :: c :: c2 :: rest, 0)
    else if s = 0 then
      (c :: c2 :: rest, 0)
    else
      let r := secInsertGo sec (c2 :: rest)
      (c :: r.1, r.2 + 1)

/-- `section_insert file sec`: returns the updated section list and the index
of the section the C function returns a pointer to. -/
def section_insert (l : List INISection) (sec : INISection) : List INISection × Nat :=
  match l with
  | [] => ([sec], 0)
  | _ :: _ => secInsertGo sec l

/-- Body of `pair_insert`'s walk; same loop shape as `secInsertGo`, except
that an equal key replaces the resident node (`freepair(curr)`). -/
def pairInsertGo (p : Pair) : List Pair → List Pair × Nat
  | [] => ([p], 0)
  | [c] => ([c, p], 1)
  | c :: c2 :: rest =>
    let s := strcmp p.key c.key
    if s < 0 then
      (p :: c :: c2 :: rest, 0)
    else if s = 0 then
      (p :: c2 :: rest, 0)
    else
      let r := pairInsertGo p (c2 :: rest)
      (c :: r.1, r.2 + 1)

/-- `pair_insert sec pair`: returns the updated pair list and the index of
the node the C function returns a pointer to. -/
def pair_insert (l : List Pair) (p : Pair) : List Pair × Nat :=
  match l with
  | [] => ([p], 0)
  | _ :: _ => pairInsertGo p l

/-- Sortedness checker used to state the Pair-Store invariant: strictly
ascending keys under `strcmp`. -/
def pairsSortedB : List Pair → Bool
  | [] => true
  | [_] => true
  | p :: q :: rest => decide (strcmp p.key q.key < 0) && pairsSortedB (q :: rest)

/-- Sortedness checker for the Section Store: strictly ascending names. -/
def secsSortedB : List INISection → Bool
  | [] => true
  | [_] => true
  | s :: t :: rest => decide (strcmp s.name t.name < 0) && secsSortedB (t :: rest)

/-- A pointer to a section inside an `INIFile`: either the default section or
the `n`-th named section. -/
inductive SecRef
  | dflt
  | idx (n : Nat)
  deriving DecidableEq, Repr

/-- Read the pair list a `SecRef` points at. -/
def getPairs (ini : INIFile) : SecRef → List Pair
  | .dflt => ini.dflt
  | .idx n => ((ini.sections.drop n).headD ⟨[], []⟩).head

/-- Replace the `n`-th element of a section list. -/
def setSecAt : List INISection → Nat → INISection → List INISection
  | [], _, _ => []
  | _ :: rest, 0, s => s :: rest
  | c :: rest, n + 1, s => c :: setSecAt rest n s

/-- Write a pair list through a `SecRef` (in C this is mutation through the
section pointer). -/
def setPairs (ini : INIFile) : SecRef → List Pair → INIFile
  | .dflt, ps => { ini with dflt := ps }
  | .idx n, ps =>
    { ini with
      sections := setSecAt ini.sections n ⟨((ini.sections.drop n).headD ⟨[], []⟩).name, ps⟩ }

/-- First index whose section name `strcmp`-equals `name` (the scan in
`ini_getsection`). -/
def findSecIdx : List INISection → Str → Option Nat
  | [], _ => none
  | s :: rest, name =>
    if strcmp name s.name = 0 then some 0
    else (findSecIdx rest name).map (· + 1)

/-- `ini_getsection`: `NULL` name means the default section; otherwise a
linear scan, `NULL` (= `none`) when not found. -/
def ini_getsection (ini : INIFile) : Option Str → Option SecRef
  | none => some .dflt
  | some name => (findSecIdx ini.sections name).map .idx

/-- `inisection_getpair`: linear scan for the first pair whose key
`strcmp`-equals `key`. -/
def inisection_getpair : List Pair → Str → Option Pair
  | [], _ => none
  | p :: rest, key => if strcmp key p.key = 0 then some p else inisection_getpair rest key

/-- `ini_getpair`: compose `ini_getsection` and `inisection_getpair`. -/
def ini_getpair (ini : INIFile) (section_ : Option Str) (key : Str) : Option Pair :=
  match ini_getsection ini section_ with
  | none => none
  | some ref => inisection_getpair (getPairs ini ref) key

/-- `pair_setval pair val`: frees the old value and strdups the new one in
place (so the pair's value simply becomes `val`); the function's return is
`pair->val`, which is `NULL` exactly when `val` was `NULL`. -/
def pair_setval (p : Pair) (val : Option Str) : Pair × Option Str :=
  (⟨p.key, val⟩, val)

/-- Replace (in place) the first pair whose key `strcmp`-equals `key` by the
same pair with value `val`; the C code reaches that node through the pointer
returned by `inisection_getpair` and calls `pair_setval` on it. -/
def setFirstPair : List Pair → Str → Option Str → List Pair
  | [], _, _ => []
  | p :: rest, key, val =>
    if strcmp key p.key = 0 then ⟨p.key, val⟩ :: rest
    else p :: setFirstPair rest key val

/-- `ini_put`: ensure the section exists (`section_insert` of a fresh empty
section when absent), then insert the pair only when the key is absent.
Returns the updated file and the pair the C function returns a pointer to. -/
def ini_put (ini : INIFile) (section_ : Option Str) (key : Str) (val : Option Str) :
    INIFile × Option Pair :=
  match ini_getsection ini section_ with
  | some ref =>
    match inisection_getpair (getPairs ini ref) key with
    | some p => (ini, some p)
    | none =>
      let r := pair_insert (getPairs ini ref) (makepair key val)
      (setPairs ini ref r.1, (r.1.drop r.2).headD (makepair key val))
  | none =>
    match section_ with
    | some name =>
      let sr := section_insert ini.sections (makesection name)
      let ini1 : INIFile := { ini with sections := sr.1 }
      let ref : SecRef := .idx sr.2
      match inisection_getpair (getPairs ini1 ref) key with
      | some p => (ini1, some p)
      | none =>
        let r := pair_insert (getPairs ini1 ref) (makepair key val)
        (setPairs ini1 ref r.1, (r.1.drop r.2).headD (makepair key val))
    | none => (ini, none)

/-- `ini_set`: look the section and pair up; fail without touching anything
when either is missing; otherwise mutate the pair's value through the pointer
with `pair_setval`, and return `NULL` when `pair_setval` did (i.e. when `val`
is `NULL`) — note the mutation has already happened at that point. -/
def ini_set (ini : INIFile) (section_ : Option Str) (key : Str) (val : Option Str) :
    INIFile × Option Pair :=
  match ini_getsection ini section_ with
  | none => (ini, none)
  | some ref =>
    match inisection_getpair (getPairs ini ref) key with
    | none => (ini, none)
    | some p =>
      let ini1 := setPairs ini ref (setFirstPair (getPairs ini ref) key val)
      match val with
      | none => (ini1, none)
      | some v => (ini1, some ⟨p.key, some v⟩)

/-- The ordered sequence of (section name, key, value) triples that
`ini_foreach` hands to the callback: default section's pairs first (its name
is `NULL`), then each named section's pairs in list order. -/
def ini_foreach (ini : INIFile) : List (Option Str × Str × Option Str) :=
  ini.dflt.map (fun p => (none, p.key, p.val))
    ++ (ini.sections.map (fun s => s.head.map (fun p => (some s.name, p.key, p.val)))).flatten

/-! ## Writer (`writeinitofile`)

Each `fprintf` in the writer emits one newline-terminated chunk; the output
stream is the concatenation of the chunks. -/

/-- The chunks the writer emits for one pair: `key=val\n`, or `key=\n` when
the value is absent and `INIO_ALLOW_EMPTY` is set, or nothing. -/
def pairChunks (aEmpty : Bool) (p : Pair) : List Str :=
  match p.val with
  | some v => [p.key ++ '=' :: v ++ ['\n']]
  | none => if aEmpty then [p.key ++ ['=', '\n']] else []

/-- The chunks the writer emits for one named section: nothing when the
section has no pairs, otherwise `[name]\n`, the pair chunks, and a blank
line. -/
def sectionChunks (aEmpty : Bool) (s : INISection) : List Str :=
  if s.head = [] then []
  else ('[' :: s.name ++ [']', '\n']) :: ((s.head.map (pairChunks aEmpty)).flatten ++ [['\n']])

/-- All chunks `writeinitofile` emits: the default section's pairs, an
unconditional blank line, then each named section. -/
def writeChunks (ini : INIFile) : List Str :=
  (ini.dflt.map (pairChunks (allowEmpty ini.flags))).flatten ++ [['\n']]
    ++ (ini.sections.map (sectionChunks (allowEmpty ini.flags))).flatten

/-- `writeinitofile`, as the character stream written to the output file. -/
def writeinitofile (ini : INIFile) : Str := (writeChunks ini).flatten

/-! ## Parser (`loadinifromfile`)

`fgets(tmpline, 512, infile)` reads at most 511 characters, stopping after a
newline; each chunk is then matched with `sscanf` against (in order) the
section-header format, the key=value format selected by the flags, and — when
`INIO_ALLOW_EMPTY` is set — the bare-key format. -/

/-- `isspace` for the default C locale. -/
def isSpaceC (c : Char) : Bool :=
  c == ' ' || c == '\t' || c == '\n' || c == '\x0b' || c == '\x0c' || c == '\r'

/-- Characters admitted by the `%256[^=; ]` key scanset. -/
def keyCharB (c : Char) : Bool := !(c == '=' || c == ';' || c == ' ')

/-- `sscanf(line, " [%256[^]]]", buf) == 1`: skip whitespace, match `[`,
then capture a non-empty run (at most 256 chars) of non-`]` characters.
`sscanf` reports 1 as soon as that capture succeeds, whether or not the
trailing `]` literal matches. -/
def scanHeader (l : Str) : Option Str :=
  match l.dropWhile isSpaceC with
  | [] => none
  | c :: rest =>
    if c = '[' then
      let cap := (rest.takeWhile (fun x => !(x == ']'))).take 256
      if cap = [] then none else some cap
    else none

/-- `sscanf(line, " %256[^=; ]=%256[^ \n] ", k, v) == 2` (the
`fmt_no_spaces` format). -/
def scanKeyValNoSpaces (l : Str) : Option (Str × Str) :=
  let l1 := l.dropWhile isSpaceC
  let key := (l1.takeWhile keyCharB).take 256
  if key = [] then none
  else
    match l1.drop key.length with
    | [] => none
    | c :: l3 =>
      if c = '=' then
        let v := (l3.takeWhile (fun x => !(x == ' ' || x == '\n'))).take 256
        if v = [] then none else some (key, v)
      else none

/-- `sscanf(line, " %256[^=; ] = %256[^\n] ", k, v) == 2` (the `fmt_spaces`
format). -/
def scanKeyValSpaces (l : Str) : Option (Str × Str) :=
  let l1 := l.dropWhile isSpaceC
  let key := (l1.takeWhile keyCharB).take 256
  if key = [] then none
  else
    match (l1.drop key.length).dropWhile isSpaceC with
    | [] => none
    | c :: l3 =>
      if c = '=' then
        let v := ((l3.dropWhile isSpaceC).takeWhile (fun x => !(x == '\n'))).take 256
        if v = [] then none else some (key, v)
      else none

/-- The key=value format selected from the flags (`keyvalfmt`). -/
def scanKeyVal (flags : Nat) (l : Str) : Option (Str × Str) :=
  if spaceDelim flags then scanKeyValSpaces l else scanKeyValNoSpaces l

/-- `sscanf(line, " %256[^=; ] \n", k) == 1`: the bare-key format; the
trailing whitespace directives never fail. -/
def scanBareKey (l : Str) : Option Str :=
  let key := ((l.dropWhile isSpaceC).takeWhile keyCharB).take 256
  if key = [] then none else some key

/-- Parser state: the file being built and `tmpsec`, the section the next
pairs are inserted into (initially the default section). -/
structure PState where
  ini : INIFile
  tmpsec : SecRef
  deriving Repr

/-- The header branch: `makesection` + `section_insert`; `tmpsec` becomes the
section the insert returned (the new one, or the resident one it found). -/
def applySection (st : PState) (name : Str) : PState :=
  let sr := section_insert st.ini.sections (makesection name)
  ⟨{ st.ini with sections := sr.1 }, .idx sr.2⟩

/-- The pair branches: `pair_insert(tmpsec, makepair(k, v))`, return value
discarded. -/
def applyPair (st : PState) (key : Str) (val : Option Str) : PState :=
  ⟨setPairs st.ini st.tmpsec (pair_insert (getPairs st.ini st.tmpsec) (makepair key val)).1,
    st.tmpsec⟩

/-- One iteration of the read loop: try the three formats in order; a line
matching none of them is dropped. -/
def processLine (st : PState) (line : Str) : PState :=
  match scanHeader line with
  | some name => applySection st name
  | none =>
    match scanKeyVal st.ini.flags line with
    | some kv => applyPair st kv.1 (some kv.2)
    | none =>
      if allowEmpty st.ini.flags then
        match scanBareKey line with
        | some k => applyPair st k none
        | none => st
      else st

/-- One `fgets(buf, n+1, _)` call: read at most `n` characters, stopping
after a newline.  Returns the line read and the rest of the stream. -/
def fgetsLine : Nat → Str → Str × Str
  | 0, cs => ([], cs)
  | _ + 1, [] => ([], [])
  | n + 1, c :: cs =>
    if c = '\n' then ([c], cs)
    else
      let r := fgetsLine n cs
      (c :: r.1, r.2)

/-- Split a stream into the chunks successive `fgets(tmpline, 512, _)` calls
return (fuelled by the stream length; each successful read consumes at least
one character). -/
def fgetsAllGo : Nat → Str → List Str
  | _, [] => []
  | 0, _ :: _ => []
  | f + 1, c :: cs =>
    let r := fgetsLine 511 (c :: cs)
    r.1 :: fgetsAllGo f r.2

def fgetsAll (cs : Str) : List Str := fgetsAllGo cs.length cs

/-- `loadinifromfile`: returns 1 when `fopen` fails, otherwise processes
every delivered line and returns 0 — the final `return 0` is unconditional,
so a stream error mid-read (which merely terminates the loop) still reports
success. -/
def loadinifromfile (ini : INIFile) (stream : Option (Str × Bool)) : INIFile × Nat :=
  match stream with
  | none => (ini, 1)
  | some (cs, _err) => (((fgetsAll cs).foldl processLine ⟨ini, .dflt⟩).ini, 0)

/-- Did the modelled stream open but end in an error state (`ferror`)? -/
def midReadError : Option (Str × Bool) → Bool
  | none => false
  | some (_, e) => e

/-! ## Shape and representability predicates (used to state the claims) -/

/-- The document's "shape": the default section's keys and, per named
section, its name and keys.  `ini_set` is claimed never to create (or drop)
sections or pairs, i.e. to preserve this. -/
def docShape (ini : INIFile) : List Str × List (Str × List Str) :=
  (ini.dflt.map Pair.key, ini.sections.map (fun s => (s.name, s.head.map Pair.key)))

/-- Pairwise strictly-ascending keys under `strcmp`. -/
def keysAscB : List Pair → Bool
  | [] => true
  | p :: rest => rest.all (fun q => decide (strcmp p.key q.key < 0)) && keysAscB rest

/-- Pairwise strictly-ascending section names under `strcmp`. -/
def namesAscB : List INISection → Bool
  | [] => true
  | s :: rest => rest.all (fun t => decide (strcmp s.name t.name < 0)) && namesAscB rest

/-- The representability condition C4 states: keys non-empty and free of
`=`/`;`/space, section names free of `=`/`;`/space, values free of embedded
newlines. -/
def claimRepresentableB (ini : INIFile) : Bool :=
  let pairOK : Pair → Bool := fun p =>
    !p.key.isEmpty && p.key.all keyCharB &&
      (match p.val with
       | none => true
       | some v => v.all (fun c => !(c == '\n')))
  ini.dflt.all pairOK &&
    ini.sections.all (fun s => s.name.all keyCharB && s.head.all pairOK)

/-- A key the parser can read back verbatim from writer output: non-empty, at
most 256 chars (the scan width), no `=`/`;`/space (the scanset), no newline
(line structure), with a first character that is neither whitespace (eaten by
the leading whitespace directive) nor `[` (which would make the header format
fire). -/
def keyOKB : Str → Bool
  | [] => false
  | c :: t =>
    !isSpaceC c && !(c == '[') && decide ((c :: t).length ≤ 256)
      && (c :: t).all (fun x => keyCharB x && !(x == '\n'))

/-- A value the parser can read back verbatim: absent values need
`INIO_ALLOW_EMPTY`; a present value is non-empty, at most 256 chars, has no
newline, and — depending on the delimiter mode — contains no space at all
(`%256[^ \n]`) or merely does not start with whitespace (eaten by the
whitespace directive after `=`). -/
def valOKB (flags : Nat) : Option Str → Bool
  | none => allowEmpty flags
  | some [] => false
  | some (c :: t) =>
    decide ((c :: t).length ≤ 256) && (c :: t).all (fun x => !(x == '\n'))
      && (if spaceDelim flags then !isSpaceC c else (c :: t).all (fun x => !(x == ' ')))

/-- A round-trippable pair: good key, good value, and short enough that
`key=value\n` fits in one 511-char `fgets` read. -/
def pairOKB (flags : Nat) (p : Pair) : Bool :=
  keyOKB p.key && valOKB flags p.val
    && (match p.val with
        | some v => decide (p.key.length + v.length ≤ 509)
        | none => true)

/-- A section name the parser can read back verbatim: non-empty, at most 256
chars, no `]` (the scanset) and no newline. -/
def nameOKB : Str → Bool
  | [] => false
  | c :: t => decide ((c :: t).length ≤ 256) && (c :: t).all (fun x => !(x == ']' || x == '\n'))

/-- The amended representability condition under which the write/parse round
trip is proved: C4's conditions strengthened to what the formats actually
require, plus the store invariants (strictly ascending keys and names) the
spec asserts of every document. -/
def representableB (ini : INIFile) : Bool :=
  keysAscB ini.dflt && ini.dflt.all (pairOKB ini.flags)
    && namesAscB ini.sections
    && ini.sections.all (fun s =>
        nameOKB s.name && keysAscB s.head && s.head.all (pairOKB ini.flags))

/-- The writer output as C8 describes it, line by line (no trailing
newlines; a blank line is `[]`): default pairs, a blank line, then per
non-empty section `[name]`, its pair lines, and a blank line. -/
def specPairLines (aEmpty : Bool) (p : Pair) : List Str :=
  match p.val with
  | some v => [p.key ++ '=' :: v]
  | none => if aEmpty then [p.key ++ ['=']] else []

def specSectionLines (aEmpty : Bool) (s : INISection) : List Str :=
  if s.head = [] then []
  else ('[' :: s.name ++ [']']) :: ((s.head.map (specPairLines aEmpty)).flatten ++ [[]])

def writerSpecLines (ini : INIFile) : List Str :=
  (ini.dflt.map (specPairLines (allowEmpty ini.flags))).flatten ++ [[]]
    ++ (ini.sections.map (specSectionLines (allowEmpty ini.flags))).flatten

/-- A stream chunk that one `fgets(_, 512, _)` call reads back whole: a
newline-terminated line with no interior newline, short enough for the
511-character read. -/
def GoodLine (l : Str) : Prop :=
  ∃ b, l = b ++ ['\n'] ∧ (∀ c ∈ b, c ≠ '\n') ∧ b.length ≤ 510

/-- A `SecRef` that points at an existing section of the file. -/
def refOK (ini : INIFile) : SecRef → Prop
  | .dflt => True
  | .idx n => n < ini.sections.length

/-! ## Basic facts about `strcmp` -/

theorem strcmp_self (a : Str) : strcmp a a = 0 := by
  induction a with
  | nil => rfl
  | cons c cs ih => simp [strcmp, ih]

theorem strcmp_swap (a b : Str) : strcmp a b = -strcmp b a := by
  induction a generalizing b with
  | nil => cases b <;> simp [strcmp]
  | cons c cs ih =>
    cases b with
    | nil => simp [strcmp]
    | cons d ds =>
      by_cases h : c = d
      · subst h; simpa [strcmp] using ih ds
      · have h' : d ≠ c := fun hh => h hh.symm
        simp only [strcmp, if_neg h, if_neg h']
        omega

theorem strcmp_pos_of_neg {a b : Str} (h : strcmp a b < 0) : 0 < strcmp b a := by
  rw [strcmp_swap a b] at h; omega

theorem strcmp_ne_of_pos {a b : Str} (h : 0 < strcmp a b) : strcmp a b ≠ 0 := by omega

/-! ## Lookup and update lemmas -/

theorem inisection_getpair_eq_none {l : List Pair} {k : Str} :
    inisection_getpair l k = none ↔ ∀ p ∈ l, strcmp k p.key ≠ 0 := by
  induction l with
  | nil => simp [inisection_getpair]
  | cons p rest ih =>
    by_cases h : strcmp k p.key = 0 <;> simp [inisection_getpair, h, ih]

theorem findSecIdx_eq_none {l : List INISection} {n : Str} :
    findSecIdx l n = none ↔ ∀ s ∈ l, strcmp n s.name ≠ 0 := by
  induction l with
  | nil => simp [findSecIdx]
  | cons s rest ih =>
    by_cases h : strcmp n s.name = 0 <;> simp [findSecIdx, h, ih]

theorem inisection_getpair_some_shape {l : List Pair} {k : Str} {p : Pair}
    (h : inisection_getpair l k = some p) :
    ∃ pre suf, l = pre ++ p :: suf ∧ (∀ q ∈ pre, strcmp k q.key ≠ 0) ∧ strcmp k p.key = 0 := by
  induction l with
  | nil => simp [inisection_getpair] at h
  | cons q rest ih =>
    by_cases hq : strcmp k q.key = 0
    · refine ⟨[], rest, ?_, by simp, ?_⟩
      · simp [inisection_getpair, hq] at h
        simp [h]
      · simp [inisection_getpair, hq] at h
        rw [← h]; exact hq
    · simp only [inisection_getpair, if_neg hq] at h
      obtain ⟨pre, suf, rfl, hpre, hp⟩ := ih h
      exact ⟨q :: pre, suf, rfl, by
        intro x hx
        rcases List.mem_cons.mp hx with rfl | hx
        · exact hq
        · exact hpre x hx, hp⟩

theorem inisection_getpair_append_first {pre suf : List Pair} {k : Str} {p : Pair}
    (hpre : ∀ q ∈ pre, strcmp k q.key ≠ 0) (hp : strcmp k p.key = 0) :
    inisection_getpair (pre ++ p :: suf) k = some p := by
  induction pre with
  | nil => simp [inisection_getpair, hp]
  | cons q rest ih =>
    have hq : strcmp k q.key ≠ 0 := hpre q (by simp)
    simp only [List.cons_append, inisection_getpair, if_neg hq]
    exact ih (fun x hx => hpre x (by simp [hx]))

theorem findSecIdx_some_shape {l : List INISection} {n : Str} {i : Nat}
    (h : findSecIdx l n = some i) :
    ∃ pre s suf, l = pre ++ s :: suf ∧ pre.length = i ∧ strcmp n s.name = 0
      ∧ ∀ t ∈ pre, strcmp n t.name ≠ 0 := by
  induction l generalizing i with
  | nil => simp [findSecIdx] at h
  | cons s rest ih =>
    by_cases hs : strcmp n s.name = 0
    · simp only [findSecIdx, if_pos hs, Option.some.injEq] at h
      exact ⟨[], s, rest, rfl, by simp [← h], hs, by simp⟩
    · simp only [findSecIdx, if_neg hs, Option.map_eq_some'] at h
      obtain ⟨j, hj, rfl⟩ := h
      obtain ⟨pre, t, suf, rfl, hlen, ht, hpre⟩ := ih hj
      refine ⟨s :: pre, t, suf, rfl, by simp [hlen], ht, ?_⟩
      intro x hx
      rcases List.mem_cons.mp hx with rfl | hx
      · exact hs
      · exact hpre x hx

theorem findSecIdx_append_first {pre suf : List INISection} {n : Str} {s : INISection}
    (hpre : ∀ t ∈ pre, strcmp n t.name ≠ 0) (hs : strcmp n s.name = 0) :
    findSecIdx (pre ++ s :: suf) n = some pre.length := by
  induction pre with
  | nil => simp [findSecIdx, hs]
  | cons t rest ih =>
    have ht : strcmp n t.name ≠ 0 := hpre t (by simp)
    simp only [List.cons_append, findSecIdx, if_neg ht, List.append_eq]
    rw [ih (fun x hx => hpre x (by simp [hx]))]
    rfl

theorem setSecAt_append (pre : List INISection) (s s' : INISection) (suf : List INISection) :
    setSecAt (pre ++ s :: suf) pre.length s' = pre ++ s' :: suf := by
  induction pre with
  | nil => simp [setSecAt]
  | cons t rest ih => simp [setSecAt, ih]

theorem setFirstPair_of_shape {pre suf : List Pair} {k : Str} {p : Pair}
    (hpre : ∀ q ∈ pre, strcmp k q.key ≠ 0) (hp : strcmp k p.key = 0) (v : Option Str) :
    setFirstPair (pre ++ p :: suf) k v = pre ++ ⟨p.key, v⟩ :: suf := by
  induction pre with
  | nil => simp [setFirstPair, hp]
  | cons q rest ih =>
    have hq : strcmp k q.key ≠ 0 := hpre q (by simp)
    simp only [List.cons_append, setFirstPair, if_neg hq, List.append_eq]
    rw [ih (fun x hx => hpre x (by simp [hx]))]

theorem setFirstPair_keys (l : List Pair) (k : Str) (v : Option Str) :
    (setFirstPair l k v).map Pair.key = l.map Pair.key := by
  induction l with
  | nil => rfl
  | cons q rest ih =>
    by_cases hq : strcmp k q.key = 0 <;> simp [setFirstPair, hq, ih]

/-! ## Insertion lemmas -/

theorem pairInsertGo_ret (p : Pair) (l : List Pair) (d : Pair) :
    ((pairInsertGo p l).1.drop (pairInsertGo p l).2).headD d = p := by
  induction l with
  | nil => simp [pairInsertGo]
  | cons c rest ih =>
    cases rest with
    | nil => simp [pairInsertGo]
    | cons c2 rest2 =>
      by_cases h1 : strcmp p.key c.key < 0
      · simp [pairInsertGo, h1]
      · by_cases h2 : strcmp p.key c.key = 0
        · simp [pairInsertGo, h1, h2]
        · simpa [pairInsertGo, h1, h2] using ih

theorem pair_insert_ret (l : List Pair) (p : Pair) (d : Pair) :
    ((pair_insert l p).1.drop (pair_insert l p).2).headD d = p := by
  cases l with
  | nil => simp [pair_insert]
  | cons c rest => simpa [pair_insert] using pairInsertGo_ret p (c :: rest) d

theorem pairInsertGo_fresh_find (p : Pair) (l : List Pair)
    (h : ∀ q ∈ l, strcmp p.key q.key ≠ 0) :
    inisection_getpair (pairInsertGo p l).1 p.key = some p := by
  induction l with
  | nil => simp [pairInsertGo, inisection_getpair, strcmp_self]
  | cons c rest ih =>
    have hc : strcmp p.key c.key ≠ 0 := h c (by simp)
    cases rest with
    | nil => simp [pairInsertGo, inisection_getpair, hc, strcmp_self]
    | cons c2 rest2 =>
      by_cases h1 : strcmp p.key c.key < 0
      · simp [pairInsertGo, h1, inisection_getpair, strcmp_self]
      · simp only [pairInsertGo, if_neg h1, if_neg hc]
        simpa [inisection_getpair, hc] using ih (fun q hq => h q (by simp [hq]))

theorem pair_insert_fresh_find (l : List Pair) (p : Pair)
    (h : ∀ q ∈ l, strcmp p.key q.key ≠ 0) :
    inisection_getpair (pair_insert l p).1 p.key = some p := by
  cases l with
  | nil => simp [pair_insert, inisection_getpair, strcmp_self]
  | cons c rest => simpa [pair_insert] using pairInsertGo_fresh_find p (c :: rest) h

theorem pairInsertGo_append (p : Pair) (l : List Pair)
    (h : ∀ q ∈ l, 0 < strcmp p.key q.key) :
    pairInsertGo p l = (l ++ [p], l.length) := by
  induction l with
  | nil => simp [pairInsertGo]
  | cons c rest ih =>
    have hc : 0 < strcmp p.key c.key := h c (by simp)
    cases rest with
    | nil => simp [pairInsertGo]
    | cons c2 rest2 =>
      simp only [pairInsertGo, if_neg (by omega : ¬ strcmp p.key c.key < 0),
        if_neg (by omega : ¬ strcmp p.key c.key = 0)]
      rw [ih (fun q hq => h q (by simp [hq]))]
      simp

theorem pair_insert_append (l : List Pair) (p : Pair)
    (h : ∀ q ∈ l, 0 < strcmp p.key q.key) :
    pair_insert l p = (l ++ [p], l.length) := by
  cases l with
  | nil => simp [pair_insert]
  | cons c rest => simpa [pair_insert] using pairInsertGo_append p (c :: rest) h

theorem secInsertGo_append (sec : INISection) (l : List INISection)
    (h : ∀ t ∈ l, 0 < strcmp sec.name t.name) :
    secInsertGo sec l = (l ++ [sec], l.length) := by
  induction l with
  | nil => simp [secInsertGo]
  | cons c rest ih =>
    have hc : 0 < strcmp sec.name c.name := h c (by simp)
    cases rest with
    | nil => simp [secInsertGo]
    | cons c2 rest2 =>
      simp only [secInsertGo, if_neg (by omega : ¬ strcmp sec.name c.name < 0),
        if_neg (by omega : ¬ strcmp sec.name c.name = 0)]
      rw [ih (fun t ht => h t (by simp [ht]))]
      simp

theorem section_insert_append (l : List INISection) (sec : INISection)
    (h : ∀ t ∈ l, 0 < strcmp sec.name t.name) :
    section_insert l sec = (l ++ [sec], l.length) := by
  cases l with
  | nil => simp [section_insert]
  | cons c rest => simpa [section_insert] using secInsertGo_append sec (c :: rest) h

theorem secInsertGo_fresh_shape (sec : INISection) (l : List INISection)
    (h : ∀ t ∈ l, strcmp sec.name t.name ≠ 0) :
    (secInsertGo sec l).1
      = l.take (secInsertGo sec l).2 ++ sec :: l.drop (secInsertGo sec l).2
    ∧ (secInsertGo sec l).2 ≤ l.length := by
  induction l with
  | nil => simp [secInsertGo]
  | cons c rest ih =>
    have hc : strcmp sec.name c.name ≠ 0 := h c (by simp)
    cases rest with
    | nil => simp [secInsertGo]
    | cons c2 rest2 =>
      by_cases h1 : strcmp sec.name c.name < 0
      · simp [secInsertGo, h1]
      · simp only [secInsertGo, if_neg h1, if_neg hc]
        obtain ⟨ih1, ih2⟩ := ih (fun t ht => h t (by simp [ht]))
        constructor
        · simpa [List.take, List.drop] using ih1
        · simpa using ih2

theorem section_insert_fresh_shape (l : List INISection) (sec : INISection)
    (h : ∀ t ∈ l, strcmp sec.name t.name ≠ 0) :
    (section_insert l sec).1
      = l.take (section_insert l sec).2 ++ sec :: l.drop (section_insert l sec).2
    ∧ (section_insert l sec).2 ≤ l.length := by
  cases l with
  | nil => simp [section_insert]
  | cons c rest => simpa [section_insert] using secInsertGo_fresh_shape sec (c :: rest) h

/-! ## Document-level lemmas for `ini_set` and `ini_put` -/

theorem getPairs_of_shape (d : INIFile) (pre : List INISection) (s : INISection)
    (suf : List INISection) (h : d.sections = pre ++ s :: suf) :
    getPairs d (.idx pre.length) = s.head := by
  simp [getPairs, h, List.drop_left]

theorem setPairs_of_shape (d : INIFile) (pre : List INISection) (s : INISection)
    (suf : List INISection) (ps : List Pair) (h : d.sections = pre ++ s :: suf) :
    setPairs d (.idx pre.length) ps
      = ⟨d.dflt, pre ++ ⟨s.name, ps⟩ :: suf, d.flags⟩ := by
  simp [setPairs, h, List.drop_left, setSecAt_append]

/-- `ini_set` when the lookup fails: nothing happens and `NULL` is returned. -/
theorem ini_set_missing (ini : INIFile) (sname : Option Str) (k : Str) (v : Option Str)
    (h : ini_getpair ini sname k = none) :
    ini_set ini sname k v = (ini, none) := by
  cases sname with
  | none =>
    simp only [ini_getpair, ini_getsection] at h
    simp [ini_set, ini_getsection, h]
  | some n =>
    cases hf : findSecIdx ini.sections n with
    | none => simp [ini_set, ini_getsection, hf]
    | some i =>
      simp only [ini_getpair, ini_getsection, hf, Option.map_some'] at h
      simp [ini_set, ini_getsection, hf, h]

/-- `ini_set` when the lookup succeeds: the pair's value is overwritten in
place, the document's shape is untouched, and the return value is the pair —
except that a `NULL` incoming value makes `pair_setval`, and hence `ini_set`,
return `NULL` even though the value was cleared. -/
theorem ini_set_found (ini : INIFile) (sname : Option Str) (k : Str) (v : Option Str)
    (p : Pair) (h : ini_getpair ini sname k = some p) :
    ini_getpair (ini_set ini sname k v).1 sname k = some ⟨p.key, v⟩
    ∧ docShape (ini_set ini sname k v).1 = docShape ini
    ∧ (ini_set ini sname k v).2
        = (match v with | none => none | some w => some ⟨p.key, some w⟩) := by
  cases sname with
  | none =>
    simp only [ini_getpair, ini_getsection, getPairs] at h
    obtain ⟨pre, suf, hdflt, hpre, hp⟩ := inisection_getpair_some_shape h
    have hset : setFirstPair ini.dflt k v = pre ++ (⟨p.key, v⟩ : Pair) :: suf := by
      rw [hdflt]; exact setFirstPair_of_shape hpre hp v
    have hfind : inisection_getpair (pre ++ (⟨p.key, v⟩ : Pair) :: suf) k
        = some ⟨p.key, v⟩ :=
      inisection_getpair_append_first hpre hp
    refine ⟨?_, ?_, ?_⟩
    · simp [ini_set, ini_getsection, getPairs, h, ini_getpair, setPairs, hset, hfind]
      cases v <;> simp [hfind]
    · simp only [ini_set, ini_getsection, getPairs, h, setPairs]
      cases v <;> simp [docShape, setFirstPair_keys]
    · simp only [ini_set, ini_getsection, getPairs, h]
      cases v <;> simp
  | some n =>
    cases hf : findSecIdx ini.sections n with
    | none => simp [ini_getpair, ini_getsection, hf] at h
    | some i =>
      simp only [ini_getpair, ini_getsection, hf, Option.map_some'] at h
      obtain ⟨spre, s, ssuf, hsec, hlen, hsn, hspre⟩ := findSecIdx_some_shape hf
      subst hlen
      rw [getPairs_of_shape ini spre s ssuf hsec] at h
      obtain ⟨pre, suf, hhead, hpre, hp⟩ := inisection_getpair_some_shape h
      have hset : setFirstPair s.head k v = pre ++ (⟨p.key, v⟩ : Pair) :: suf := by
        rw [hhead]; exact setFirstPair_of_shape hpre hp v
      have hone : setPairs ini (.idx spre.length) (setFirstPair (getPairs ini (.idx spre.length)) k v)
          = ⟨ini.dflt, spre ++ ⟨s.name, pre ++ (⟨p.key, v⟩ : Pair) :: suf⟩ :: ssuf, ini.flags⟩ := by
        rw [getPairs_of_shape ini spre s ssuf hsec, hset]
        exact setPairs_of_shape ini spre s ssuf _ hsec
      have hres : (ini_set ini (some n) k v).1
          = ⟨ini.dflt, spre ++ ⟨s.name, pre ++ (⟨p.key, v⟩ : Pair) :: suf⟩ :: ssuf, ini.flags⟩ := by
        simp only [ini_set, ini_getsection, hf, Option.map_some',
          getPairs_of_shape ini spre s ssuf hsec, h]
        cases v <;> simp [← hone, getPairs_of_shape ini spre s ssuf hsec]
      have hfind2 : findSecIdx (spre ++ (⟨s.name, pre ++ (⟨p.key, v⟩ : Pair) :: suf⟩ : INISection) :: ssuf) n
          = some spre.length :=
        findSecIdx_append_first hspre hsn
      refine ⟨?_, ?_, ?_⟩
      · rw [hres]
        simp only [ini_getpair, ini_getsection, hfind2, Option.map_some']
        rw [getPairs_of_shape _ spre _ ssuf rfl]
        exact inisection_getpair_append_first hpre hp
      · rw [hres]
        simp [docShape, hsec, hhead]
      · simp only [ini_set, ini_getsection, hf, Option.map_some',
          getPairs_of_shape ini spre s ssuf hsec, h]
        cases v <;> simp

/-- `ini_put` when the key already exists: nothing happens, the resident
pair is returned. -/
theorem ini_put_found (ini : INIFile) (sname : Option Str) (k : Str) (v : Option Str)
    (p : Pair) (h : ini_getpair ini sname k = some p) :
    ini_put ini sname k v = (ini, some p) := by
  cases sname with
  | none =>
    simp only [ini_getpair, ini_getsection] at h
    simp [ini_put, ini_getsection, h]
  | some n =>
    cases hf : findSecIdx ini.sections n with
    | none => simp [ini_getpair, ini_getsection, hf] at h
    | some i =>
      simp only [ini_getpair, ini_getsection, hf, Option.map_some'] at h
      simp [ini_put, ini_getsection, hf, h]

/-- `ini_put` when the key is absent: the section is created when missing,
the pair is created with the given value, and a subsequent lookup finds it. -/
theorem ini_put_fresh (ini : INIFile) (sname : Option Str) (k : Str) (v : Option Str)
    (h : ini_getpair ini sname k = none) :
    ini_getpair (ini_put ini sname k v).1 sname k = some (makepair k v) := by
  cases sname with
  | none =>
    simp only [ini_getpair, ini_getsection, getPairs] at h
    have hfr : ∀ q ∈ ini.dflt, strcmp k q.key ≠ 0 := inisection_getpair_eq_none.mp h
    simp only [ini_put, ini_getsection, getPairs, h]
    simpa [ini_getpair, ini_getsection, getPairs, setPairs] using
      pair_insert_fresh_find ini.dflt (makepair k v) hfr
  | some n =>
    cases hf : findSecIdx ini.sections n with
    | some i =>
      simp only [ini_getpair, ini_getsection, hf, Option.map_some'] at h
      obtain ⟨spre, s, ssuf, hsec, hlen, hsn, hspre⟩ := findSecIdx_some_shape hf
      subst hlen
      rw [getPairs_of_shape ini spre s ssuf hsec] at h
      have hfr : ∀ q ∈ s.head, strcmp k q.key ≠ 0 := inisection_getpair_eq_none.mp h
      have hres : (ini_put ini (some n) k v).1
          = ⟨ini.dflt, spre ++ ⟨s.name, (pair_insert s.head (makepair k v)).1⟩ :: ssuf,
              ini.flags⟩ := by
        simp only [ini_put, ini_getsection, hf, Option.map_some',
          getPairs_of_shape ini spre s ssuf hsec, h]
        exact setPairs_of_shape ini spre s ssuf _ hsec
      rw [hres]
      have hfind2 := @findSecIdx_append_first spre ssuf n
        ⟨s.name, (pair_insert s.head (makepair k v)).1⟩ hspre hsn
      simp only [ini_getpair, ini_getsection, hfind2, Option.map_some']
      rw [getPairs_of_shape _ spre _ ssuf rfl]
      exact pair_insert_fresh_find s.head (makepair k v) hfr
    | none =>
      have hfr : ∀ t ∈ ini.sections, strcmp n t.name ≠ 0 := findSecIdx_eq_none.mp hf
      obtain ⟨hshape, hle⟩ := section_insert_fresh_shape ini.sections (makesection n) hfr
      have hlen : (ini.sections.take (section_insert ini.sections (makesection n)).2).length
          = (section_insert ini.sections (makesection n)).2 :=
        List.length_take_of_le hle
      have hget : getPairs (⟨ini.dflt, (section_insert ini.sections (makesection n)).1,
            ini.flags⟩ : INIFile) (.idx (section_insert ini.sections (makesection n)).2)
          = [] := by
        rw [← hlen]
        exact getPairs_of_shape _ _ (makesection n) _ (by rw [← hshape])
      have hput : (ini_put ini (some n) k v).1
          = ⟨ini.dflt,
              ini.sections.take (section_insert ini.sections (makesection n)).2
                ++ ⟨n, [makepair k v]⟩
                :: ini.sections.drop (section_insert ini.sections (makesection n)).2,
              ini.flags⟩ := by
        simp only [ini_put, ini_getsection, hf, Option.map_none']
        simp only [hget, inisection_getpair, pair_insert]
        have := setPairs_of_shape
          (⟨ini.dflt, (section_insert ini.sections (makesection n)).1, ini.flags⟩ : INIFile)
          (ini.sections.take (section_insert ini.sections (makesection n)).2)
          (makesection n)
          (ini.sections.drop (section_insert ini.sections (makesection n)).2)
          [makepair k v] (by rw [← hshape])
        rw [hlen] at this
        rw [this]
        rfl
      rw [hput]
      have hspre : ∀ t ∈ ini.sections.take (section_insert ini.sections (makesection n)).2,
          strcmp n t.name ≠ 0 :=
        fun t ht => hfr t (List.mem_of_mem_take ht)
      have hfind := @findSecIdx_append_first
        (ini.sections.take (section_insert ini.sections (makesection n)).2)
        (ini.sections.drop (section_insert ini.sections (makesection n)).2)
        n ⟨n, [makepair k v]⟩ hspre (strcmp_self n)
      simp only [ini_getpair, ini_getsection, hfind, Option.map_some']
      rw [getPairs_of_shape _ _ (⟨n, [makepair k v]⟩ : INISection) _ rfl]
      simp [inisection_getpair, strcmp_self, makepair]

/-! ## Claim C5 -/

/-- C5: `ini_put` creates the section when absent and the pair (with the
given value) when absent, but leaves an existing pair — and the document —
completely untouched; consequently `put(s,k,v1)` followed by `put(s,k,v2)`
leaves the value at `v1`. -/
theorem c5_put_never_overwrites (ini : INIFile) (sname : Option Str) (k : Str)
    (v1 v2 : Option Str) :
    (∀ p, ini_getpair ini sname k = some p → ini_put ini sname k v1 = (ini, some p))
    ∧ (ini_getpair ini sname k = none →
        ini_getpair (ini_put ini sname k v1).1 sname k = some (makepair k v1)
        ∧ ini_getpair (ini_put (ini_put ini sname k v1).1 sname k v2).1 sname k
            = some (makepair k v1)) := by
  refine ⟨fun p h => ini_put_found ini sname k v1 p h, fun h => ?_⟩
  have h1 := ini_put_fresh ini sname k v1 h
  refine ⟨h1, ?_⟩
  rw [ini_put_found (ini_put ini sname k v1).1 sname k v2 (makepair k v1) h1]
  exact h1

/-- Witness for C5 at concrete inputs: putting `k=1` then `k=2` into an
initially empty document (with section `S` absent) leaves the value at `1`,
and a put on an existing pair returns it and changes nothing. -/
theorem c5_put_never_overwrites_witness :
    ini_put (⟨[], [⟨['S'], [makepair ['k'] (some ['1'])]⟩], 0⟩ : INIFile)
        (some ['S']) ['k'] (some ['9'])
      = (⟨[], [⟨['S'], [makepair ['k'] (some ['1'])]⟩], 0⟩, some (makepair ['k'] (some ['1'])))
    ∧ ini_getpair (ini_put (makeini 0) (some ['S']) ['k'] (some ['1'])).1
        (some ['S']) ['k'] = some (makepair ['k'] (some ['1']))
    ∧ ini_getpair
        (ini_put (ini_put (makeini 0) (some ['S']) ['k'] (some ['1'])).1
          (some ['S']) ['k'] (some ['2'])).1 (some ['S']) ['k']
      = some (makepair ['k'] (some ['1'])) :=
  ⟨(c5_put_never_overwrites ⟨[], [⟨['S'], [makepair ['k'] (some ['1'])]⟩], 0⟩
      (some ['S']) ['k'] (some ['9']) none).1 (makepair ['k'] (some ['1'])) (by decide),
   ((c5_put_never_overwrites (makeini 0) (some ['S']) ['k'] (some ['1'])
      (some ['2'])).2 (by decide)).1,
   ((c5_put_never_overwrites (makeini 0) (some ['S']) ['k'] (some ['1'])
      (some ['2'])).2 (by decide)).2⟩

/-! ## Claim C1 -/

/-- C1 (code bug): the claim says every sequence of `pair_insert` calls
leaves the pair list strictly ascending by key with no duplicates.  The
insertion loop runs `while (curr->next != NULL)` and therefore never compares
against the last node, so inserting into a one-element list always appends:
inserting key `a` twice yields the list `[a, a]` (a duplicate), and inserting
`a` after `b` yields `[b, a]` (not ascending); `pairsSortedB` rejects both. -/
theorem c1_pair_store_invariant_violated :
    (pair_insert (pair_insert [] (makepair ['a'] (some ['1']))).1
        (makepair ['a'] (some ['2']))).1
      = [makepair ['a'] (some ['1']), makepair ['a'] (some ['2'])]
    ∧ pairsSortedB (pair_insert (pair_insert [] (makepair ['a'] (some ['1']))).1
        (makepair ['a'] (some ['2']))).1 = false
    ∧ (pair_insert (pair_insert [] (makepair ['b'] none)).1 (makepair ['a'] none)).1
      = [makepair ['b'] none, makepair ['a'] none]
    ∧ pairsSortedB (pair_insert (pair_insert [] (makepair ['b'] none)).1
        (makepair ['a'] none)).1 = false := by
  decide

/-! ## Claim C2 -/

/-- C2 (code bug): the claim says re-inserting an existing section name
returns the already-resident section with its pairs preserved and leaves the
store unchanged.  Because `section_insert`'s loop never compares against the
last node, inserting a fresh empty section named `A` into a store whose only
(hence last) section is named `A` appends a duplicate and returns the new
empty section (index 1), not the resident one with its pair; and inserting
`a` after `b` leaves the store out of order. -/
theorem c2_section_insert_duplicate_not_kept :
    section_insert [⟨['A'], [makepair ['k'] (some ['v'])]⟩] (makesection ['A'])
      = ([⟨['A'], [makepair ['k'] (some ['v'])]⟩, ⟨['A'], []⟩], 1)
    ∧ secsSortedB (section_insert [makesection ['b']] (makesection ['a'])).1 = false := by
  decide

/-! ## Claim C3 -/

/-- C3 (code bug): the claim says `pair_insert` on an existing key discards
the resident pair and replaces it, so that a subsequent find yields the new
pair.  When the resident pair with the same key is the last node it is never
compared (the loop stops at `curr->next == NULL`), so the new pair is
appended after it and `inisection_getpair` — a first-match scan — still
yields the old pair with the old value. -/
theorem c3_pair_overwrite_fails_at_tail :
    (pair_insert [makepair ['a'] (some ['1'])] (makepair ['a'] (some ['2']))).1
      = [makepair ['a'] (some ['1']), makepair ['a'] (some ['2'])]
    ∧ inisection_getpair
        (pair_insert [makepair ['a'] (some ['1'])] (makepair ['a'] (some ['2']))).1 ['a']
      = some (makepair ['a'] (some ['1'])) := by
  decide

/-! ## Claim C6 -/

/-- C6: `ini_set` on a missing section or missing key returns the not-found
outcome (`NULL`) and leaves the document untouched; when section and key both
exist it overwrites that pair's value in place and never creates (or removes)
any section or pair — the document's shape is preserved. -/
theorem c6_set_never_creates (ini : INIFile) (sname : Option Str) (k : Str) (v : Option Str) :
    (ini_getpair ini sname k = none → ini_set ini sname k v = (ini, none))
    ∧ (∀ p, ini_getpair ini sname k = some p →
        ini_getpair (ini_set ini sname k v).1 sname k = some ⟨p.key, v⟩
        ∧ docShape (ini_set ini sname k v).1 = docShape ini) := by
  refine ⟨fun h => ini_set_missing ini sname k v h, fun p h => ?_⟩
  obtain ⟨h1, h2, _⟩ := ini_set_found ini sname k v p h
  exact ⟨h1, h2⟩

/-- Witness for C6 at a concrete document: setting a missing section and a
missing key both fail without touching the document, and setting an existing
key overwrites its value while preserving the shape. -/
theorem c6_set_never_creates_witness :
    ini_set (⟨[], [⟨['S'], [makepair ['k'] (some ['1'])]⟩], 0⟩ : INIFile)
        (some ['T']) ['k'] (some ['2'])
      = (⟨[], [⟨['S'], [makepair ['k'] (some ['1'])]⟩], 0⟩, none)
    ∧ ini_set (⟨[], [⟨['S'], [makepair ['k'] (some ['1'])]⟩], 0⟩ : INIFile)
        (some ['S']) ['x'] (some ['2'])
      = (⟨[], [⟨['S'], [makepair ['k'] (some ['1'])]⟩], 0⟩, none)
    ∧ ini_getpair
        (ini_set (⟨[], [⟨['S'], [makepair ['k'] (some ['1'])]⟩], 0⟩ : INIFile)
          (some ['S']) ['k'] (some ['2'])).1 (some ['S']) ['k']
      = some ⟨['k'], some ['2']⟩
    ∧ docShape (ini_set (⟨[], [⟨['S'], [makepair ['k'] (some ['1'])]⟩], 0⟩ : INIFile)
          (some ['S']) ['k'] (some ['2'])).1
      = docShape (⟨[], [⟨['S'], [makepair ['k'] (some ['1'])]⟩], 0⟩ : INIFile) :=
  ⟨(c6_set_never_creates ⟨[], [⟨['S'], [makepair ['k'] (some ['1'])]⟩], 0⟩
      (some ['T']) ['k'] (some ['2'])).1 (by decide),
   (c6_set_never_creates ⟨[], [⟨['S'], [makepair ['k'] (some ['1'])]⟩], 0⟩
      (some ['S']) ['x'] (some ['2'])).1 (by decide),
   ((c6_set_never_creates ⟨[], [⟨['S'], [makepair ['k'] (some ['1'])]⟩], 0⟩
      (some ['S']) ['k'] (some ['2'])).2 (makepair ['k'] (some ['1'])) (by decide)).1,
   ((c6_set_never_creates ⟨[], [⟨['S'], [makepair ['k'] (some ['1'])]⟩], 0⟩
      (some ['S']) ['k'] (some ['2'])).2 (makepair ['k'] (some ['1'])) (by decide)).2⟩

/-! ## Claim C10 -/

/-- C10: when section and key exist, `ini_set` with a `NULL` value clears the
pair's value in place (the document is modified whenever the pair had a
value) yet returns `NULL`, the same outcome as a failed lookup — so a
successful clear is indistinguishable from a failed set by the return
value. -/
theorem c10_set_null_clears_but_reports_failure (ini : INIFile) (sname : Option Str)
    (k : Str) (p : Pair) (h : ini_getpair ini sname k = some p) :
    (ini_set ini sname k none).2 = none
    ∧ ini_getpair (ini_set ini sname k none).1 sname k = some ⟨p.key, none⟩
    ∧ (p.val ≠ none → (ini_set ini sname k none).1 ≠ ini) := by
  obtain ⟨h1, _, h3⟩ := ini_set_found ini sname k none p h
  refine ⟨h3, h1, fun hv heq => hv ?_⟩
  rw [heq, h] at h1
  cases p with
  | mk key val => cases h1; rfl

/-- Witness for C10 at a concrete document: clearing the value of the
existing pair `k=1` returns `NULL` while the document changes. -/
theorem c10_set_null_clears_but_reports_failure_witness :
    (ini_set (⟨[makepair ['k'] (some ['1'])], [], 0⟩ : INIFile) none ['k'] none).2 = none
    ∧ ini_getpair
        (ini_set (⟨[makepair ['k'] (some ['1'])], [], 0⟩ : INIFile) none ['k'] none).1
        none ['k'] = some ⟨['k'], none⟩
    ∧ (ini_set (⟨[makepair ['k'] (some ['1'])], [], 0⟩ : INIFile) none ['k'] none).1
      ≠ (⟨[makepair ['k'] (some ['1'])], [], 0⟩ : INIFile) :=
  ⟨(c10_set_null_clears_but_reports_failure ⟨[makepair ['k'] (some ['1'])], [], 0⟩
      none ['k'] (makepair ['k'] (some ['1'])) (by decide)).1,
   (c10_set_null_clears_but_reports_failure ⟨[makepair ['k'] (some ['1'])], [], 0⟩
      none ['k'] (makepair ['k'] (some ['1'])) (by decide)).2.1,
   (c10_set_null_clears_but_reports_failure ⟨[makepair ['k'] (some ['1'])], [], 0⟩
      none ['k'] (makepair ['k'] (some ['1'])) (by decide)).2.2 (by decide)⟩

/-! ## Scan helpers: takeWhile/dropWhile over structured lines -/

theorem dropWhile_cons_neg {p : Char → Bool} {c : Char} {cs : Str} (h : p c = false) :
    (c :: cs).dropWhile p = c :: cs := by
  simp [List.dropWhile, h]

theorem takeWhile_append_stop {p : Char → Bool} {xs : Str} {y : Char} {ys : Str}
    (hxs : ∀ c ∈ xs, p c = true) (hy : p y = false) :
    (xs ++ y :: ys).takeWhile p = xs := by
  induction xs with
  | nil => simp [List.takeWhile, hy]
  | cons x rest ih =>
    have hx : p x = true := hxs x (by simp)
    simp only [List.cons_append, List.takeWhile, hx, List.append_eq]
    rw [ih (fun c hc => hxs c (by simp [hc]))]

theorem takeWhile_all {p : Char → Bool} {xs : Str} (hxs : ∀ c ∈ xs, p c = true) :
    xs.takeWhile p = xs := by
  induction xs with
  | nil => rfl
  | cons x rest ih =>
    have hx : p x = true := hxs x (by simp)
    simp only [List.takeWhile, hx]
    rw [ih (fun c hc => hxs c (by simp [hc]))]

/-! ## Stream chunking (`fgets`) lemmas -/

theorem fgetsLine_exact (n : Nat) (b rest : Str) (hn : b.length < n)
    (hb : ∀ c ∈ b, c ≠ '\n') :
    fgetsLine n (b ++ '\n' :: rest) = (b ++ ['\n'], rest) := by
  induction b generalizing n with
  | nil =>
    cases n with
    | zero => omega
    | succ m => simp [fgetsLine]
  | cons c b' ih =>
    cases n with
    | zero => omega
    | succ m =>
      have hc : c ≠ '\n' := hb c (by simp)
      simp only [List.cons_append, fgetsLine, if_neg hc, List.append_eq]
      rw [ih m (by simpa using hn) (fun x hx => hb x (by simp [hx]))]

theorem fgetsAllGo_cons_of_ne_nil (f : Nat) (cs : Str) (h : cs ≠ []) :
    fgetsAllGo (f + 1) cs
      = (fgetsLine 511 cs).1 :: fgetsAllGo f (fgetsLine 511 cs).2 := by
  cases cs with
  | nil => exact absurd rfl h
  | cons c cs' => rfl

theorem fgetsAllGo_chunks (chunks : List Str) (fuel : Nat)
    (hg : ∀ l ∈ chunks, GoodLine l) (hf : chunks.flatten.length ≤ fuel) :
    fgetsAllGo fuel chunks.flatten = chunks := by
  induction chunks generalizing fuel with
  | nil => cases fuel <;> rfl
  | cons l rest ih =>
    obtain ⟨b, rfl, hb, hlen⟩ := hg l (by simp)
    have hflat : ((b ++ ['\n']) :: rest).flatten = b ++ '\n' :: rest.flatten := by
      simp
    have hne : ((b ++ ['\n']) :: rest).flatten ≠ [] := by
      rw [hflat]
      exact List.append_ne_nil_of_right_ne_nil b (by simp)
    have hpos : 1 ≤ ((b ++ ['\n']) :: rest).flatten.length := by
      cases hcs : ((b ++ ['\n']) :: rest).flatten with
      | nil => exact absurd hcs hne
      | cons x xs => simp
    cases fuel with
    | zero => omega
    | succ f =>
      rw [fgetsAllGo_cons_of_ne_nil f _ hne, hflat,
        fgetsLine_exact 511 b rest.flatten (by omega) hb]
      have hrest : rest.flatten.length ≤ f := by
        have : ((b ++ ['\n']) :: rest).flatten.length
            = b.length + 1 + rest.flatten.length := by
          simp [hflat]
          omega
        omega
      rw [ih f (fun x hx => hg x (by simp [hx])) hrest]

theorem fgetsAll_chunks (chunks : List Str) (hg : ∀ l ∈ chunks, GoodLine l) :
    fgetsAll chunks.flatten = chunks :=
  fgetsAllGo_chunks chunks chunks.flatten.length hg le_rfl

/-! ## Extraction of the Bool-valued conditions -/

theorem keyOKB_parts {k : Str} (h : keyOKB k = true) :
    ∃ kc kt, k = kc :: kt ∧ isSpaceC kc = false ∧ kc ≠ '['
      ∧ k.length ≤ 256 ∧ ∀ c ∈ k, keyCharB c = true ∧ c ≠ '\n' := by
  cases k with
  | nil => simp [keyOKB] at h
  | cons kc kt =>
    simp only [keyOKB, Bool.and_eq_true, List.all_eq_true, decide_eq_true_eq,
      Bool.not_eq_true', beq_eq_false_iff_ne] at h
    exact ⟨kc, kt, rfl, h.1.1.1, h.1.1.2, h.1.2, fun c hc => (h.2 c hc).imp id id⟩

theorem nameOKB_parts {n : Str} (h : nameOKB n = true) :
    n ≠ [] ∧ n.length ≤ 256 ∧ ∀ c ∈ n, c ≠ ']' ∧ c ≠ '\n' := by
  cases n with
  | nil => simp [nameOKB] at h
  | cons c t =>
    simp only [nameOKB, Bool.and_eq_true, List.all_eq_true, decide_eq_true_eq,
      Bool.not_eq_true', Bool.or_eq_false_iff, beq_eq_false_iff_ne] at h
    exact ⟨by simp, h.1, fun x hx => ⟨(h.2 x hx).1, (h.2 x hx).2⟩⟩

/-! ## Line classification lemmas -/

theorem scanHeader_header {nm : Str} (h : nameOKB nm = true) :
    scanHeader ('[' :: (nm ++ [']', '\n'])) = some nm := by
  obtain ⟨hne, hlen, hall⟩ := nameOKB_parts h
  have hdw : ('[' :: (nm ++ [']', '\n'])).dropWhile isSpaceC = '[' :: (nm ++ [']', '\n']) :=
    dropWhile_cons_neg (by decide)
  have hcap : (nm ++ [']', '\n']).takeWhile (fun x => !(x == ']')) = nm := by
    have e : nm ++ [']', '\n'] = nm ++ ']' :: ['\n'] := rfl
    rw [e]
    exact takeWhile_append_stop (fun c hc => by simp [(hall c hc).1]) (by decide)
  simp only [scanHeader, hdw, hcap, List.take_of_length_le hlen]
  simp [hne]

theorem scanHeader_none_of_head {c : Char} {cs : Str}
    (h1 : isSpaceC c = false) (h2 : c ≠ '[') :
    scanHeader (c :: cs) = none := by
  simp [scanHeader, dropWhile_cons_neg h1, h2]

theorem scanKeyValNoSpaces_pairline {kc : Char} {kt v : Str}
    (hsp : isSpaceC kc = false)
    (hkall : ∀ c ∈ kc :: kt, keyCharB c = true)
    (hklen : (kc :: kt).length ≤ 256)
    (hvne : v ≠ []) (hvlen : v.length ≤ 256)
    (hvall : ∀ c ∈ v, (!(c == ' ' || c == '\n')) = true) :
    scanKeyValNoSpaces ((kc :: kt) ++ '=' :: (v ++ ['\n'])) = some (kc :: kt, v) := by
  obtain ⟨vc, vt, rfl⟩ := List.exists_cons_of_ne_nil hvne
  have hdw : ((kc :: kt) ++ '=' :: (vc :: vt ++ ['\n'])).dropWhile isSpaceC
      = (kc :: kt) ++ '=' :: (vc :: vt ++ ['\n']) := by
    rw [List.cons_append]
    rw [dropWhile_cons_neg hsp]
  have hkey : ((kc :: kt) ++ '=' :: (vc :: vt ++ ['\n'])).takeWhile keyCharB = kc :: kt :=
    takeWhile_append_stop hkall (by decide)
  have hdrop : ((kc :: kt) ++ '=' :: (vc :: vt ++ ['\n'])).drop (kc :: kt).length
      = '=' :: (vc :: vt ++ ['\n']) := List.drop_left _ _
  have hval : (vc :: vt ++ ['\n']).takeWhile (fun x => !(x == ' ' || x == '\n'))
      = vc :: vt := by
    have e : vc :: vt ++ ['\n'] = (vc :: vt) ++ '\n' :: [] := rfl
    rw [e]
    exact takeWhile_append_stop hvall (by decide)
  simp only [scanKeyValNoSpaces, hdw, hkey, List.take_of_length_le hklen, hdrop, hval,
    List.take_of_length_le hvlen]
  simp

theorem scanKeyValSpaces_pairline {kc : Char} {kt : Str} {vc : Char} {vt : Str}
    (hsp : isSpaceC kc = false)
    (hkall : ∀ c ∈ kc :: kt, keyCharB c = true)
    (hklen : (kc :: kt).length ≤ 256)
    (hvsp : isSpaceC vc = false) (hvlen : (vc :: vt).length ≤ 256)
    (hvall : ∀ c ∈ vc :: vt, (!(c == '\n')) = true) :
    scanKeyValSpaces ((kc :: kt) ++ '=' :: ((vc :: vt) ++ ['\n'])) = some (kc :: kt, vc :: vt) := by
  have hdw : ((kc :: kt) ++ '=' :: ((vc :: vt) ++ ['\n'])).dropWhile isSpaceC
      = (kc :: kt) ++ '=' :: ((vc :: vt) ++ ['\n']) := by
    rw [List.cons_append]
    rw [dropWhile_cons_neg hsp]
  have hkey : ((kc :: kt) ++ '=' :: ((vc :: vt) ++ ['\n'])).takeWhile keyCharB = kc :: kt :=
    takeWhile_append_stop hkall (by decide)
  have hdrop : ((kc :: kt) ++ '=' :: ((vc :: vt) ++ ['\n'])).drop (kc :: kt).length
      = '=' :: ((vc :: vt) ++ ['\n']) := List.drop_left _ _
  have hdw2 : ('=' :: ((vc :: vt) ++ ['\n'])).dropWhile isSpaceC
      = '=' :: ((vc :: vt) ++ ['\n']) := dropWhile_cons_neg (by decide)
  have hdw3 : ((vc :: vt) ++ ['\n']).dropWhile isSpaceC = (vc :: vt) ++ ['\n'] := by
    rw [List.cons_append]
    rw [dropWhile_cons_neg hvsp]
  have hval : ((vc :: vt) ++ ['\n']).takeWhile (fun x => !(x == '\n')) = vc :: vt := by
    have e : (vc :: vt) ++ ['\n'] = (vc :: vt) ++ '\n' :: [] := rfl
    rw [e]
    exact takeWhile_append_stop hvall (by decide)
  simp only [scanKeyValSpaces, hdw, hkey, List.take_of_length_le hklen, hdrop, hdw2, hdw3,
    hval, List.take_of_length_le hvlen]
  simp

theorem scanKeyValNoSpaces_emptyvalline {kc : Char} {kt : Str}
    (hsp : isSpaceC kc = false)
    (hkall : ∀ c ∈ kc :: kt, keyCharB c = true)
    (hklen : (kc :: kt).length ≤ 256) :
    scanKeyValNoSpaces ((kc :: kt) ++ ['=', '\n']) = none := by
  have hdw : ((kc :: kt) ++ ['=', '\n']).dropWhile isSpaceC = (kc :: kt) ++ ['=', '\n'] := by
    rw [List.cons_append]
    rw [dropWhile_cons_neg hsp]
  have hkey : ((kc :: kt) ++ ['=', '\n']).takeWhile keyCharB = kc :: kt := by
    have e : (kc :: kt) ++ ['=', '\n'] = (kc :: kt) ++ '=' :: ['\n'] := rfl
    rw [e]
    exact takeWhile_append_stop hkall (by decide)
  have hdrop : ((kc :: kt) ++ ['=', '\n']).drop (kc :: kt).length = ['=', '\n'] :=
    List.drop_left _ _
  simp only [scanKeyValNoSpaces, hdw, hkey, List.take_of_length_le hklen, hdrop]
  simp [List.takeWhile]

theorem scanKeyValSpaces_emptyvalline {kc : Char} {kt : Str}
    (hsp : isSpaceC kc = false)
    (hkall : ∀ c ∈ kc :: kt, keyCharB c = true)
    (hklen : (kc :: kt).length ≤ 256) :
    scanKeyValSpaces ((kc :: kt) ++ ['=', '\n']) = none := by
  have hdw : ((kc :: kt) ++ ['=', '\n']).dropWhile isSpaceC = (kc :: kt) ++ ['=', '\n'] := by
    rw [List.cons_append]
    rw [dropWhile_cons_neg hsp]
  have hkey : ((kc :: kt) ++ ['=', '\n']).takeWhile keyCharB = kc :: kt := by
    have e : (kc :: kt) ++ ['=', '\n'] = (kc :: kt) ++ '=' :: ['\n'] := rfl
    rw [e]
    exact takeWhile_append_stop hkall (by decide)
  have hdrop : ((kc :: kt) ++ ['=', '\n']).drop (kc :: kt).length = ['=', '\n'] :=
    List.drop_left _ _
  have hdw2 : (['=', '\n'] : Str).dropWhile isSpaceC = ['=', '\n'] :=
    dropWhile_cons_neg (by decide)
  simp only [scanKeyValSpaces, hdw, hkey, List.take_of_length_le hklen, hdrop, hdw2]
  simp [List.dropWhile, isSpaceC, List.takeWhile]

theorem scanBareKey_emptyvalline {kc : Char} {kt : Str}
    (hsp : isSpaceC kc = false)
    (hkall : ∀ c ∈ kc :: kt, keyCharB c = true)
    (hklen : (kc :: kt).length ≤ 256) :
    scanBareKey ((kc :: kt) ++ ['=', '\n']) = some (kc :: kt) := by
  have hdw : ((kc :: kt) ++ ['=', '\n']).dropWhile isSpaceC = (kc :: kt) ++ ['=', '\n'] := by
    rw [List.cons_append]
    rw [dropWhile_cons_neg hsp]
  have hkey : ((kc :: kt) ++ ['=', '\n']).takeWhile keyCharB = kc :: kt := by
    have e : (kc :: kt) ++ ['=', '\n'] = (kc :: kt) ++ '=' :: ['\n'] := rfl
    rw [e]
    exact takeWhile_append_stop hkall (by decide)
  simp only [scanBareKey, hdw, hkey, List.take_of_length_le hklen]
  simp

theorem processLine_blank (st : PState) : processLine st ['\n'] = st := by
  have h1 : scanHeader ['\n'] = none := by decide
  have h2 : ∀ flags, scanKeyVal flags ['\n'] = none := by
    intro flags
    cases h : spaceDelim flags <;>
      simp [scanKeyVal, h, scanKeyValNoSpaces, scanKeyValSpaces, List.dropWhile, isSpaceC]
  have h3 : scanBareKey ['\n'] = none := by decide
  cases hA : allowEmpty st.ini.flags <;>
    simp [processLine, h1, h2, h3, hA]

/-! ## State update lemmas -/

theorem setSecAt_length (l : List INISection) (n : Nat) (s : INISection) :
    (setSecAt l n s).length = l.length := by
  induction l generalizing n with
  | nil => rfl
  | cons c rest ih =>
    cases n with
    | zero => rfl
    | succ m => simp [setSecAt, ih]

theorem setSecAt_drop (l : List INISection) (n : Nat) (s : INISection) (h : n < l.length) :
    (setSecAt l n s).drop n = s :: l.drop (n + 1) := by
  induction l generalizing n with
  | nil => simp at h
  | cons c rest ih =>
    cases n with
    | zero => simp [setSecAt]
    | succ m => simpa [setSecAt] using ih m (by simpa using h)

theorem setSecAt_setSecAt (l : List INISection) (n : Nat) (s s' : INISection) :
    setSecAt (setSecAt l n s) n s' = setSecAt l n s' := by
  induction l generalizing n with
  | nil => rfl
  | cons c rest ih =>
    cases n with
    | zero => rfl
    | succ m => simp [setSecAt, ih]

theorem setSecAt_self (l : List INISection) (n : Nat) (d : INISection) (h : n < l.length) :
    setSecAt l n ((l.drop n).headD d) = l := by
  induction l generalizing n with
  | nil => rfl
  | cons c rest ih =>
    cases n with
    | zero => simp [setSecAt]
    | succ m =>
      simp only [setSecAt, List.drop_succ_cons, List.cons.injEq, true_and]
      exact ih m (by simpa using h)

theorem getPairs_setPairs (ini : INIFile) (ref : SecRef) (ps : List Pair)
    (h : refOK ini ref) : getPairs (setPairs ini ref ps) ref = ps := by
  cases ref with
  | dflt => rfl
  | idx n =>
    simp only [refOK] at h
    simp [getPairs, setPairs, setSecAt_drop _ _ _ h]

theorem setPairs_getPairs_self (ini : INIFile) (ref : SecRef) (h : refOK ini ref) :
    setPairs ini ref (getPairs ini ref) = ini := by
  cases ref with
  | dflt => rfl
  | idx n =>
    simp only [refOK] at h
    have e : setSecAt ini.sections n
        ⟨((ini.sections.drop n).headD ⟨[], []⟩).name, getPairs ini (.idx n)⟩
        = ini.sections := by
      have e2 : (⟨((ini.sections.drop n).headD ⟨[], []⟩).name,
          getPairs ini (.idx n)⟩ : INISection) = (ini.sections.drop n).headD ⟨[], []⟩ := rfl
      rw [e2]
      exact setSecAt_self _ _ _ h
    show (⟨ini.dflt, setSecAt ini.sections n _, ini.flags⟩ : INIFile) = ini
    rw [e]

theorem setPairs_setPairs (ini : INIFile) (ref : SecRef) (x y : List Pair)
    (h : refOK ini ref) :
    setPairs (setPairs ini ref x) ref y = setPairs ini ref y := by
  cases ref with
  | dflt => rfl
  | idx n =>
    simp only [refOK] at h
    simp [setPairs, setSecAt_drop _ _ _ h, setSecAt_setSecAt]

theorem setPairs_flags (ini : INIFile) (ref : SecRef) (ps : List Pair) :
    (setPairs ini ref ps).flags = ini.flags := by
  cases ref <;> rfl

theorem setPairs_dflt_idx (ini : INIFile) (n : Nat) (ps : List Pair) :
    (setPairs ini (.idx n) ps).dflt = ini.dflt := rfl

theorem setPairs_sections_length (ini : INIFile) (ref : SecRef) (ps : List Pair) :
    (setPairs ini ref ps).sections.length = ini.sections.length := by
  cases ref <;> simp [setPairs, setSecAt_length]

theorem refOK_setPairs (ini : INIFile) (ref ref' : SecRef) (ps : List Pair)
    (h : refOK ini ref') : refOK (setPairs ini ref ps) ref' := by
  cases ref' with
  | dflt => trivial
  | idx n => simpa [refOK, setPairs_sections_length] using h

/-! ## Extraction of the remaining Bool conditions -/

theorem keysAscB_cons {p : Pair} {rest : List Pair} (h : keysAscB (p :: rest) = true) :
    (∀ q ∈ rest, strcmp p.key q.key < 0) ∧ keysAscB rest = true := by
  simpa only [keysAscB, Bool.and_eq_true, List.all_eq_true, decide_eq_true_eq] using h

theorem namesAscB_cons {s : INISection} {rest : List INISection}
    (h : namesAscB (s :: rest) = true) :
    (∀ t ∈ rest, strcmp s.name t.name < 0) ∧ namesAscB rest = true := by
  simpa only [namesAscB, Bool.and_eq_true, List.all_eq_true, decide_eq_true_eq] using h

theorem pairOKB_parts {flags : Nat} {p : Pair} (h : pairOKB flags p = true) :
    keyOKB p.key = true ∧ valOKB flags p.val = true
      ∧ ∀ v, p.val = some v → p.key.length + v.length ≤ 509 := by
  simp only [pairOKB, Bool.and_eq_true] at h
  refine ⟨h.1.1, h.1.2, fun v hv => ?_⟩
  have h2 := h.2
  rw [hv] at h2
  simpa using h2

theorem valOKB_none {flags : Nat} (h : valOKB flags none = true) :
    allowEmpty flags = true := by
  simpa [valOKB] using h

theorem valOKB_some_parts {flags : Nat} {v : Str} (h : valOKB flags (some v) = true) :
    ∃ vc vt, v = vc :: vt ∧ v.length ≤ 256 ∧ (∀ c ∈ v, c ≠ '\n')
      ∧ (spaceDelim flags = true → isSpaceC vc = false)
      ∧ (spaceDelim flags = false → ∀ c ∈ v, c ≠ ' ') := by
  cases v with
  | nil => simp [valOKB] at h
  | cons vc vt =>
    cases hsd : spaceDelim flags with
    | false =>
      simp only [valOKB, hsd, Bool.false_eq_true, if_false, Bool.and_eq_true,
        List.all_eq_true, decide_eq_true_eq, Bool.not_eq_true', beq_eq_false_iff_ne] at h
      refine ⟨vc, vt, rfl, h.1.1, h.1.2, ?_, fun _ => h.2⟩
      intro hT
      exact Bool.noConfusion hT
    | true =>
      simp only [valOKB, hsd, if_true, Bool.and_eq_true,
        List.all_eq_true, decide_eq_true_eq, Bool.not_eq_true', beq_eq_false_iff_ne] at h
      refine ⟨vc, vt, rfl, h.1.1, h.1.2, fun _ => h.2, ?_⟩
      intro hT
      exact Bool.noConfusion hT

/-! ## Per-line processing lemmas -/

theorem processLine_headerline (st : PState) {nm : Str} (hn : nameOKB nm = true) :
    processLine st ('[' :: (nm ++ [']', '\n'])) = applySection st nm := by
  simp [processLine, scanHeader_header hn]

theorem processLine_pairline (st : PState) {k v : Str}
    (hk : keyOKB k = true) (hv : valOKB st.ini.flags (some v) = true) :
    processLine st (k ++ '=' :: (v ++ ['\n'])) = applyPair st k (some v) := by
  obtain ⟨kc, kt, rfl, hsp, hbr, hklen, hkall⟩ := keyOKB_parts hk
  obtain ⟨vc, vt, rfl, hvlen, hvnl, hsd1, hsd2⟩ := valOKB_some_parts hv
  have hkall' : ∀ c ∈ kc :: kt, keyCharB c = true := fun c hc => (hkall c hc).1
  have hh : scanHeader ((kc :: kt) ++ '=' :: ((vc :: vt) ++ ['\n'])) = none := by
    rw [List.cons_append]
    exact scanHeader_none_of_head hsp hbr
  cases hsd : spaceDelim st.ini.flags with
  | false =>
    have hkv : scanKeyVal st.ini.flags ((kc :: kt) ++ '=' :: ((vc :: vt) ++ ['\n']))
        = some (kc :: kt, vc :: vt) := by
      simp only [scanKeyVal, hsd, Bool.false_eq_true, if_false]
      exact scanKeyValNoSpaces_pairline hsp hkall' hklen (by simp) hvlen
        (fun c hc => by simp [hvnl c hc, hsd2 hsd c hc])
    simp only [List.cons_append] at hh hkv
    simp [processLine, hh, hkv]
  | true =>
    have hkv : scanKeyVal st.ini.flags ((kc :: kt) ++ '=' :: ((vc :: vt) ++ ['\n']))
        = some (kc :: kt, vc :: vt) := by
      simp only [scanKeyVal, hsd, if_true]
      exact scanKeyValSpaces_pairline hsp hkall' hklen (hsd1 hsd) hvlen
        (fun c hc => by simp [hvnl c hc])
    simp only [List.cons_append] at hh hkv
    simp [processLine, hh, hkv]

theorem processLine_emptyline (st : PState) {k : Str}
    (hk : keyOKB k = true) (hA : allowEmpty st.ini.flags = true) :
    processLine st (k ++ ['=', '\n']) = applyPair st k none := by
  obtain ⟨kc, kt, rfl, hsp, hbr, hklen, hkall⟩ := keyOKB_parts hk
  have hkall' : ∀ c ∈ kc :: kt, keyCharB c = true := fun c hc => (hkall c hc).1
  have hh : scanHeader ((kc :: kt) ++ ['=', '\n']) = none := by
    rw [List.cons_append]
    exact scanHeader_none_of_head hsp hbr
  have hkv : scanKeyVal st.ini.flags ((kc :: kt) ++ ['=', '\n']) = none := by
    cases hsd : spaceDelim st.ini.flags with
    | false =>
      simp only [scanKeyVal, hsd, Bool.false_eq_true, if_false]
      exact scanKeyValNoSpaces_emptyvalline hsp hkall' hklen
    | true =>
      simp only [scanKeyVal, hsd, if_true]
      exact scanKeyValSpaces_emptyvalline hsp hkall' hklen
  have hbk : scanBareKey ((kc :: kt) ++ ['=', '\n']) = some (kc :: kt) :=
    scanBareKey_emptyvalline hsp hkall' hklen
  simp only [List.cons_append] at hh hkv hbk
  simp [processLine, hh, hkv, hA, hbk]

/-! ## Replaying writer output through the parser -/

theorem replay_pairs (ps : List Pair) (st : PState)
    (href : refOK st.ini st.tmpsec)
    (hok : ∀ p ∈ ps, pairOKB st.ini.flags p = true)
    (hasc : keysAscB ps = true)
    (hgt : ∀ q ∈ getPairs st.ini st.tmpsec, ∀ p ∈ ps, 0 < strcmp p.key q.key) :
    (ps.map (pairChunks (allowEmpty st.ini.flags))).flatten.foldl processLine st
      = ⟨setPairs st.ini st.tmpsec (getPairs st.ini st.tmpsec ++ ps), st.tmpsec⟩ := by
  induction ps generalizing st with
  | nil =>
    simp only [List.map_nil, List.flatten_nil, List.foldl_nil, List.append_nil]
    rw [setPairs_getPairs_self st.ini st.tmpsec href]
  | cons p rest ih =>
    obtain ⟨hkOK, hvOK, _⟩ := pairOKB_parts (hok p (by simp))
    obtain ⟨hlt, hascr⟩ := keysAscB_cons hasc
    have hins : pair_insert (getPairs st.ini st.tmpsec) p
        = (getPairs st.ini st.tmpsec ++ [p], (getPairs st.ini st.tmpsec).length) :=
      pair_insert_append _ p (fun q hq => hgt q hq p (by simp))
    have hstep : ∀ line, processLine st line = applyPair st p.key p.val →
        (((p :: rest).map (pairChunks (allowEmpty st.ini.flags))).flatten
          = line :: (rest.map (pairChunks (allowEmpty st.ini.flags))).flatten) →
        (((p :: rest).map (pairChunks (allowEmpty st.ini.flags))).flatten.foldl processLine st
          = ⟨setPairs st.ini st.tmpsec (getPairs st.ini st.tmpsec ++ (p :: rest)),
              st.tmpsec⟩) := by
      intro line hpl hflat
      have hmk : makepair p.key p.val = p := rfl
      have happ : applyPair st p.key p.val
          = ⟨setPairs st.ini st.tmpsec (getPairs st.ini st.tmpsec ++ [p]), st.tmpsec⟩ := by
        simp only [applyPair, hmk, hins]
      rw [hflat, List.foldl_cons, hpl, happ]
      have hfl : (setPairs st.ini st.tmpsec (getPairs st.ini st.tmpsec ++ [p])).flags
          = st.ini.flags := setPairs_flags ..
      have href1 : refOK (setPairs st.ini st.tmpsec (getPairs st.ini st.tmpsec ++ [p]))
          st.tmpsec := refOK_setPairs _ _ _ _ href
      have hget1 : getPairs (setPairs st.ini st.tmpsec (getPairs st.ini st.tmpsec ++ [p]))
          st.tmpsec = getPairs st.ini st.tmpsec ++ [p] := getPairs_setPairs _ _ _ href
      have ihres := ih ⟨setPairs st.ini st.tmpsec (getPairs st.ini st.tmpsec ++ [p]),
          st.tmpsec⟩ href1
        (by intro q hq; rw [hfl]; exact hok q (by simp [hq]))
        hascr
        (by
          intro q hq p' hp'
          rw [hget1] at hq
          rcases List.mem_append.mp hq with hq | hq
          · exact hgt q hq p' (by simp [hp'])
          · have : q = p := by simpa using hq
            subst this
            exact strcmp_pos_of_neg (hlt p' hp'))
      rw [hfl] at ihres
      rw [ihres, hget1, setPairs_setPairs _ _ _ _ href]
      simp
    cases hpv : p.val with
    | some v =>
      have hv' : valOKB st.ini.flags (some v) = true := by rw [← hpv]; exact hvOK
      exact hstep (p.key ++ '=' :: (v ++ ['\n']))
        (by rw [processLine_pairline st hkOK hv', hpv])
        (by simp [pairChunks, hpv])
    | none =>
      have hA : allowEmpty st.ini.flags = true := valOKB_none (hpv ▸ hvOK)
      exact hstep (p.key ++ ['=', '\n'])
        (by rw [processLine_emptyline st hkOK hA, hpv])
        (by simp [pairChunks, hpv, hA])

theorem replay_sections (ss : List INISection) (st : PState)
    (hok : ∀ s ∈ ss, nameOKB s.name = true ∧ keysAscB s.head = true
        ∧ ∀ p ∈ s.head, pairOKB st.ini.flags p = true)
    (hnasc : namesAscB ss = true)
    (hgt : ∀ t ∈ st.ini.sections, ∀ s ∈ ss, 0 < strcmp s.name t.name) :
    ((ss.map (sectionChunks (allowEmpty st.ini.flags))).flatten.foldl processLine st).ini
      = ⟨st.ini.dflt, st.ini.sections ++ ss.filter (fun s => !s.head.isEmpty),
          st.ini.flags⟩ := by
  induction ss generalizing st with
  | nil => simp
  | cons s rest ih =>
    obtain ⟨hnm, hkasc, hpok⟩ := hok s (by simp)
    obtain ⟨hslt, hnascr⟩ := namesAscB_cons hnasc
    by_cases hse : s.head = []
    · have hch : sectionChunks (allowEmpty st.ini.flags) s = [] := by
        simp [sectionChunks, hse]
      have hemp : s.head.isEmpty = true := by
        rw [hse]
        rfl
      have hfil : (s :: rest).filter (fun s => !s.head.isEmpty)
          = rest.filter (fun s => !s.head.isEmpty) := by
        simp [List.filter_cons, hemp]
      rw [List.map_cons, hch, List.flatten_cons, List.nil_append, hfil]
      exact ih st (fun t ht => hok t (by simp [ht])) hnascr
        (fun t ht s' hs' => hgt t ht s' (by simp [hs']))
    · have hch : sectionChunks (allowEmpty st.ini.flags) s
          = ('[' :: (s.name ++ [']', '\n']))
            :: ((s.head.map (pairChunks (allowEmpty st.ini.flags))).flatten ++ [['\n']]) := by
        simp [sectionChunks, hse]
      have hsecins : section_insert st.ini.sections (makesection s.name)
          = (st.ini.sections ++ [makesection s.name], st.ini.sections.length) :=
        section_insert_append _ _ (fun t ht => hgt t ht s (by simp))
      have hhdr : processLine st ('[' :: (s.name ++ [']', '\n']))
          = ⟨⟨st.ini.dflt, st.ini.sections ++ [makesection s.name], st.ini.flags⟩,
              .idx st.ini.sections.length⟩ := by
        rw [processLine_headerline st hnm]
        simp only [applySection, hsecins]
      set st1 : PState := ⟨⟨st.ini.dflt, st.ini.sections ++ [makesection s.name],
        st.ini.flags⟩, .idx st.ini.sections.length⟩ with hst1
      have hget1 : getPairs st1.ini st1.tmpsec = [] := by
        rw [hst1]
        exact getPairs_of_shape _ st.ini.sections (makesection s.name) [] rfl
      have href1 : refOK st1.ini st1.tmpsec := by
        rw [hst1]
        simp [refOK]
      have hpairs := replay_pairs s.head st1 href1
        (by intro p hp; rw [hst1]; exact hpok p hp)
        hkasc
        (by rw [hget1]; intro q hq; simp at hq)
      rw [hget1, List.nil_append] at hpairs
      have hsetp : setPairs st1.ini st1.tmpsec s.head
          = ⟨st.ini.dflt, st.ini.sections ++ [s], st.ini.flags⟩ := by
        rw [hst1]
        have := setPairs_of_shape st1.ini st.ini.sections (makesection s.name) [] s.head
          (by rw [hst1])
        rw [hst1] at this
        simpa [makesection] using this
      have hemp : s.head.isEmpty = false := by
        cases hh : s.head with
        | nil => exact absurd hh hse
        | cons a b => rfl
      have hfil : (s :: rest).filter (fun s => !s.head.isEmpty)
          = s :: rest.filter (fun s => !s.head.isEmpty) := by
        simp [List.filter_cons, hemp]
      rw [List.map_cons, hch, List.flatten_cons]
      rw [List.cons_append, List.foldl_cons, hhdr]
      have hfl1 : st1.ini.flags = st.ini.flags := rfl
      rw [hfl1] at hpairs
      rw [List.append_assoc, List.foldl_append, hpairs, hsetp]
      have hbl : List.foldl processLine
          (⟨⟨st.ini.dflt, st.ini.sections ++ [s], st.ini.flags⟩, st1.tmpsec⟩ : PState)
          [['\n']]
          = ⟨⟨st.ini.dflt, st.ini.sections ++ [s], st.ini.flags⟩, st1.tmpsec⟩ := by
        simp [processLine_blank]
      rw [List.foldl_append, hbl]
      have ihres := ih ⟨⟨st.ini.dflt, st.ini.sections ++ [s], st.ini.flags⟩, st1.tmpsec⟩
        (fun t ht => hok t (by simp [ht]))
        hnascr
        (by
          intro t ht s' hs'
          simp only [List.mem_append] at ht
          rcases ht with ht | ht
          · exact hgt t ht s' (by simp [hs'])
          · have : t = s := by simpa using ht
            subst this
            exact strcmp_pos_of_neg (hslt s' hs'))
      dsimp only at ihres
      rw [ihres, hfil]
      simp

/-! ## Writer chunks are well-formed lines -/

theorem representableB_parts {ini : INIFile} (h : representableB ini = true) :
    keysAscB ini.dflt = true ∧ (∀ p ∈ ini.dflt, pairOKB ini.flags p = true)
      ∧ namesAscB ini.sections = true
      ∧ ∀ s ∈ ini.sections, nameOKB s.name = true ∧ keysAscB s.head = true
          ∧ ∀ p ∈ s.head, pairOKB ini.flags p = true := by
  simp only [representableB, Bool.and_eq_true, List.all_eq_true] at h
  refine ⟨h.1.1.1, h.1.1.2, h.1.2, fun s hs => ?_⟩
  have h2 := h.2 s hs
  simp only [Bool.and_eq_true, List.all_eq_true] at h2
  exact ⟨h2.1.1, h2.1.2, h2.2⟩

theorem pairChunks_good {flags : Nat} {p : Pair} (h : pairOKB flags p = true) :
    ∀ l ∈ pairChunks (allowEmpty flags) p, GoodLine l := by
  intro l hl
  obtain ⟨hk, hv, hlen9⟩ := pairOKB_parts h
  obtain ⟨kc, kt, hkey, hsp, hbr, hklen, hkall⟩ := keyOKB_parts hk
  have hknl : ∀ c ∈ p.key, c ≠ '\n' := fun c hc => (hkall c hc).2
  cases hpv : p.val with
  | some v =>
    obtain ⟨vc, vt, hveq, hvlen, hvnl, _, _⟩ := valOKB_some_parts (hpv ▸ hv)
    simp only [pairChunks, hpv, List.mem_singleton] at hl
    subst hl
    refine ⟨p.key ++ '=' :: v, by simp, ?_, ?_⟩
    · intro c hc
      simp only [List.mem_append, List.mem_cons] at hc
      rcases hc with hc | hc | hc
      · exact hknl c hc
      · subst hc
        decide
      · exact hvnl c hc
    · have h9 := hlen9 v hpv
      simp only [List.length_append, List.length_cons]
      omega
  | none =>
    simp only [pairChunks, hpv] at hl
    cases hA : allowEmpty flags with
    | false =>
      rw [hA] at hl
      simp at hl
    | true =>
      rw [hA] at hl
      simp only [if_true, List.mem_singleton] at hl
      subst hl
      refine ⟨p.key ++ ['='], by simp, ?_, ?_⟩
      · intro c hc
        simp only [List.mem_append, List.mem_singleton] at hc
        rcases hc with hc | hc
        · exact hknl c hc
        · subst hc
          decide
      · simp only [List.length_append, List.length_singleton]
        omega

theorem sectionChunks_good {flags : Nat} {s : INISection} (hnm : nameOKB s.name = true)
    (hps : ∀ p ∈ s.head, pairOKB flags p = true) :
    ∀ l ∈ sectionChunks (allowEmpty flags) s, GoodLine l := by
  intro l hl
  by_cases hse : s.head = []
  · simp [sectionChunks, hse] at hl
  · obtain ⟨hnne, hnlen, hnall⟩ := nameOKB_parts hnm
    simp only [sectionChunks, if_neg hse] at hl
    rw [List.mem_cons] at hl
    rcases hl with rfl | hl
    · refine ⟨'[' :: (s.name ++ [']']), by simp, ?_, ?_⟩
      · intro c hc
        simp only [List.mem_cons, List.mem_append, List.mem_singleton,
          List.not_mem_nil, or_false] at hc
        rcases hc with hc | hc | hc
        · subst hc
          decide
        · exact (hnall c hc).2
        · subst hc
          decide
      · simp only [List.length_cons, List.length_append, List.length_nil]
        omega
    · rw [List.mem_append] at hl
      rcases hl with hl | hl
      · rw [List.mem_flatten] at hl
        obtain ⟨lst, hlst, hl2⟩ := hl
        rw [List.mem_map] at hlst
        obtain ⟨q, hq, rfl⟩ := hlst
        exact pairChunks_good (hps q hq) l hl2
      · rw [List.mem_singleton] at hl
        subst hl
        exact ⟨[], rfl, by simp, by simp⟩

theorem writeChunks_good {ini : INIFile} (h : representableB ini = true) :
    ∀ l ∈ writeChunks ini, GoodLine l := by
  obtain ⟨hasc, hdok, hnasc, hsok⟩ := representableB_parts h
  intro l hl
  simp only [writeChunks] at hl
  rw [List.mem_append] at hl
  rcases hl with hl | hl
  · rw [List.mem_append] at hl
    rcases hl with hl | hl
    · rw [List.mem_flatten] at hl
      obtain ⟨lst, hlst, hl2⟩ := hl
      rw [List.mem_map] at hlst
      obtain ⟨p, hp, rfl⟩ := hlst
      exact pairChunks_good (hdok p hp) l hl2
    · rw [List.mem_singleton] at hl
      subst hl
      exact ⟨[], rfl, by simp, by simp⟩
  · rw [List.mem_flatten] at hl
    obtain ⟨lst, hlst, hl2⟩ := hl
    rw [List.mem_map] at hlst
    obtain ⟨s, hs, rfl⟩ := hlst
    exact sectionChunks_good (hsok s hs).1 (hsok s hs).2.2 l hl2

theorem flatten_filter_sections (ss : List INISection) :
    ((ss.filter (fun s => !s.head.isEmpty)).map
        (fun s => s.head.map (fun p => ((some s.name : Option Str), p.key, p.val)))).flatten
      = (ss.map (fun s => s.head.map
          (fun p => ((some s.name : Option Str), p.key, p.val)))).flatten := by
  induction ss with
  | nil => rfl
  | cons s rest ih =>
    by_cases h : s.head = []
    · have hemp : s.head.isEmpty = true := by rw [h]; rfl
      simp [List.filter_cons, hemp, h, ih]
    · have hemp : s.head.isEmpty = false := by
        cases hh : s.head with
        | nil => exact absurd hh h
        | cons a b => rfl
      simp [List.filter_cons, hemp, ih]

/-! ## Claim C4 -/

/-- C4 (counterexample): the claim's representability conditions admit a
value containing a space, but under `INIO_NONE` the key=value format's value
scanset is `%256[^ \n]`, which stops at the space: the document with default
pair `k = "a b"` satisfies every condition C4 states, yet writing it and
re-parsing the output with the same options yields the triple
`(NULL, k, "a")` instead of `(NULL, k, "a b")`. -/
theorem c4_space_value_breaks_roundtrip :
    claimRepresentableB ⟨[makepair ['k'] (some ['a', ' ', 'b'])], [], 0⟩ = true
    ∧ ini_foreach (loadinifromfile (makeini 0)
        (some (writeinitofile ⟨[makepair ['k'] (some ['a', ' ', 'b'])], [], 0⟩, false))).1
      ≠ ini_foreach ⟨[makepair ['k'] (some ['a', ' ', 'b'])], [], 0⟩ := by
  decide

/-- C4 (amended): the write/parse round trip preserves the `ini_foreach`
triple sequence for documents satisfying the store invariants the spec
asserts (strictly ascending keys and section names) together with the
representability the formats actually require: keys non-empty, ≤ 256 chars,
free of `=`/`;`/space/newline, not starting with whitespace or `[`; section
names non-empty, ≤ 256 chars, free of `]` and newline; values present unless
`INIO_ALLOW_EMPTY` is set, non-empty, ≤ 256 chars, newline-free, with no
space at all when `INIO_SPACE_AROUND_DELIM` is off and no leading whitespace
when it is on; and `key=value\n` fitting one 511-char `fgets` read. -/
theorem c4_roundtrip_amended (ini : INIFile) (h : representableB ini = true) :
    ini_foreach (loadinifromfile (makeini ini.flags)
        (some (writeinitofile ini, false))).1
      = ini_foreach ini := by
  obtain ⟨hasc, hdok, hnasc, hsok⟩ := representableB_parts h
  have hlines : fgetsAll (writeinitofile ini) = writeChunks ini :=
    fgetsAll_chunks _ (writeChunks_good h)
  have hload : (loadinifromfile (makeini ini.flags) (some (writeinitofile ini, false))).1
      = ((writeChunks ini).foldl processLine ⟨makeini ini.flags, .dflt⟩).ini := by
    simp [loadinifromfile, hlines]
  rw [hload]
  simp only [makeini] at hload ⊢
  have h1 := replay_pairs ini.dflt ⟨⟨[], [], ini.flags⟩, .dflt⟩ trivial
    (fun p hp => hdok p hp) hasc
    (by intro q hq; simp [getPairs] at hq)
  simp only [getPairs, setPairs, List.nil_append] at h1
  have hsplit : writeChunks ini
      = ((ini.dflt.map (pairChunks (allowEmpty ini.flags))).flatten ++ [['\n']])
        ++ (ini.sections.map (sectionChunks (allowEmpty ini.flags))).flatten := rfl
  rw [hsplit, List.foldl_append, List.foldl_append]
  rw [h1]
  have hbl : List.foldl processLine
      (⟨⟨ini.dflt, [], ini.flags⟩, SecRef.dflt⟩ : PState) [['\n']]
      = ⟨⟨ini.dflt, [], ini.flags⟩, SecRef.dflt⟩ := by
    simp [processLine_blank]
  rw [hbl]
  have h2 := replay_sections ini.sections
    (⟨⟨ini.dflt, [], ini.flags⟩, SecRef.dflt⟩ : PState)
    (fun s hs => hsok s hs) hnasc (by intro t ht; simp at ht)
  dsimp only at h2
  rw [h2]
  simp only [ini_foreach, List.nil_append]
  congr 1
  exact flatten_filter_sections ini.sections

/-- Witness for C4 (amended) at a concrete representable document. -/
theorem c4_roundtrip_amended_witness :
    representableB (⟨[makepair ['a'] (some ['1'])],
        [⟨['S'], [makepair ['b'] (some ['2'])]⟩], 0⟩ : INIFile) = true
    ∧ ini_foreach (loadinifromfile (makeini 0)
        (some (writeinitofile (⟨[makepair ['a'] (some ['1'])],
          [⟨['S'], [makepair ['b'] (some ['2'])]⟩], 0⟩ : INIFile), false))).1
      = ini_foreach (⟨[makepair ['a'] (some ['1'])],
          [⟨['S'], [makepair ['b'] (some ['2'])]⟩], 0⟩ : INIFile) :=
  ⟨by decide, c4_roundtrip_amended ⟨[makepair ['a'] (some ['1'])],
      [⟨['S'], [makepair ['b'] (some ['2'])]⟩], 0⟩ (by decide)⟩

/-! ## Claim C7 -/

/-- C7: each input line is tried against the three recognitions in a fixed
priority order — section header, then delimited key=value pair (the format
chosen by the flags), then, only under `INIO_ALLOW_EMPTY`, bare key — the
first match wins, and a line matching none of them leaves the parser state
unchanged (it is dropped; parsing never aborts, `processLine` is total). -/
theorem c7_line_priority (st : PState) (line : Str) :
    (∀ name, scanHeader line = some name → processLine st line = applySection st name)
    ∧ (scanHeader line = none → ∀ k v, scanKeyVal st.ini.flags line = some (k, v) →
        processLine st line = applyPair st k (some v))
    ∧ (scanHeader line = none → scanKeyVal st.ini.flags line = none →
        allowEmpty st.ini.flags = true → ∀ k, scanBareKey line = some k →
        processLine st line = applyPair st k none)
    ∧ (scanHeader line = none → scanKeyVal st.ini.flags line = none →
        (allowEmpty st.ini.flags = false ∨ scanBareKey line = none) →
        processLine st line = st) := by
  refine ⟨?_, ?_, ?_, ?_⟩
  · intro name h
    simp [processLine, h]
  · intro h k v h2
    simp [processLine, h, h2]
  · intro h h2 h3 k h4
    simp [processLine, h, h2, h3, h4]
  · intro h h2 h3
    rcases h3 with h3 | h3
    · simp [processLine, h, h2, h3]
    · cases hA : allowEmpty st.ini.flags <;> simp [processLine, h, h2, h3, hA]

/-- Witness for C7 at concrete lines and the strict-options parser state:
`[S]` matches as a header, `k=v` as a pair once the header fails, and a blank
line matches nothing and is dropped. -/
theorem c7_line_priority_witness :
    processLine ⟨makeini 0, .dflt⟩ ['[', 'S', ']', '\n']
      = applySection ⟨makeini 0, .dflt⟩ ['S']
    ∧ processLine ⟨makeini 0, .dflt⟩ ['k', '=', 'v', '\n']
      = applyPair ⟨makeini 0, .dflt⟩ ['k'] (some ['v'])
    ∧ processLine ⟨makeini 0, .dflt⟩ ['\n'] = ⟨makeini 0, .dflt⟩ :=
  ⟨(c7_line_priority ⟨makeini 0, .dflt⟩ ['[', 'S', ']', '\n']).1 ['S'] (by decide),
   (c7_line_priority ⟨makeini 0, .dflt⟩ ['k', '=', 'v', '\n']).2.1 (by decide)
     ['k'] ['v'] (by decide),
   (c7_line_priority ⟨makeini 0, .dflt⟩ ['\n']).2.2.2 (by decide) (by decide)
     (Or.inl (by decide))⟩

/-! ## Claim C8 -/

theorem pairChunks_eq_spec (a : Bool) (p : Pair) :
    pairChunks a p = (specPairLines a p).map (· ++ ['\n']) := by
  cases p with
  | mk k val => cases val <;> cases a <;> simp [pairChunks, specPairLines]

theorem pairs_flatten_map_newline (a : Bool) (ps : List Pair) :
    (ps.map (pairChunks a)).flatten
      = ((ps.map (specPairLines a)).flatten).map (· ++ ['\n']) := by
  induction ps with
  | nil => rfl
  | cons p rest ih => simp [pairChunks_eq_spec, ih]

theorem sectionChunks_eq_spec (a : Bool) (s : INISection) :
    sectionChunks a s = (specSectionLines a s).map (· ++ ['\n']) := by
  by_cases h : s.head = []
  · simp [sectionChunks, specSectionLines, h]
  · simp [sectionChunks, specSectionLines, h, pairs_flatten_map_newline]

theorem secs_flatten_map_newline (a : Bool) (ss : List INISection) :
    (ss.map (sectionChunks a)).flatten
      = ((ss.map (specSectionLines a)).flatten).map (· ++ ['\n']) := by
  induction ss with
  | nil => rfl
  | cons s rest ih => simp [sectionChunks_eq_spec, ih]

/-- C8: the writer's output is exactly the line sequence C8 describes, each
line terminated by a newline: the default section's pairs in `key=value`
form (`key=` for an absent value under `INIO_ALLOW_EMPTY`, skipped without
it), one unconditional blank line, then per named section in list order —
nothing at all for a section with no pairs, otherwise `[name]`, its pair
lines, and a blank line. -/
theorem c8_writer_layout (ini : INIFile) :
    writeinitofile ini = (((writerSpecLines ini).map (· ++ ['\n']))).flatten := by
  have h : writeChunks ini = (writerSpecLines ini).map (· ++ ['\n']) := by
    simp [writeChunks, writerSpecLines, pairs_flatten_map_newline, secs_flatten_map_newline]
  simp [writeinitofile, h]

/-! ## Claim C9 -/

/-- C9 (counterexample): a stream that opens but enters an error state
mid-read still makes `loadinifromfile` report success — after `fopen`
succeeds the function unconditionally ends with `return 0`; `ferror` only
terminates the read loop.  The claim requires a nonzero return here. -/
theorem c9_error_stream_reports_success :
    midReadError (some (['a'], true)) = true
    ∧ (loadinifromfile (makeini 0) (some (['a'], true))).2 = 0 := by
  decide

/-- C9 (amended): `loadinifromfile` returns nonzero exactly when the input
cannot be opened; malformed content, and a stream error mid-read, both
report success (the error merely stops the reading early). -/
theorem c9_nonzero_iff_open_fails (ini : INIFile) (stream : Option (Str × Bool)) :
    ((loadinifromfile ini stream).2 = 1 ↔ stream = none)
    ∧ ((loadinifromfile ini stream).2 = 0 ↔ stream ≠ none) := by
  cases stream with
  | none => simp [loadinifromfile]
  | some cs =>
    cases cs
    simp [loadinifromfile]

end IniC
